import Mathlib

/-!
Verification of the morphology repository's trie engines.

We shallowly embed the two core Python modules:

* `morphology.py` — a character/chunk `Trie` (dict-of-dicts with a `None`
  terminal marker), the `MorphemeTrie` branch-point segmentation
  (`_split_chunks`), and `make_tries`.
* `agreement.py` — `EndingTrie` (per-stem trie over reversed endings with
  word/ending counters and the `collapse_endings` convergence loop) and
  `StemEndingCounter`.

Python strings are embedded as `List Char`; a Python dict node
`{key: child, ..., None: None}` becomes a `Node` holding an association
list of children plus a `term` flag for the `None` terminal marker.
Dict keys are unique; where a statement needs that fact it carries an
explicit `Nodup` hypothesis.  Counters become association lists from keys
to counts.  Python floats are embedded as exact rationals: for every
comparison the code performs (`num_successors >= old * 0.2`,
`count < mean(...)`, `top / total`) the IEEE-754 double result coincides
with the exact rational comparison for all operand sizes below `2^53`,
far beyond anything the program can construct.
-/

namespace Morphology

/-- A Python string (a dict key of the trie): embedded as a list of
characters. -/
abbrev Sym := List Char

/-- A trie node: the Python dict mapping symbol keys to child nodes.  The
reserved `None` key ("a complete entry ends here", `morphology.py` line 60)
is the `term` flag. -/
inductive Node where
  | mk (children : List (Sym × Node)) (term : Bool)

/-- The children association list of a node. -/
def Node.children : Node → List (Sym × Node)
  | .mk cs _ => cs

/-- Whether the node carries the terminal marker (the `None` key). -/
def Node.term : Node → Bool
  | .mk _ b => b

/-- The empty node: `Trie.__init__` sets `self.root = {}`. -/
def Node.empty : Node := .mk [] false

instance : Inhabited Node := ⟨Node.empty⟩

/-- Python dict lookup `d[k]` on the children list (first matching key;
dict keys are unique so this is the entry). -/
def lookupChild (cs : List (Sym × Node)) (k : Sym) : Option Node :=
  match cs with
  | [] => none
  | (k', t) :: rest => if k' = k then some t else lookupChild rest k

/-- Python dict assignment `d[k] = v`: replace the entry in place if the
key exists, otherwise append it (dicts keep insertion order). -/
def setChild (cs : List (Sym × Node)) (k : Sym) (v : Node) :
    List (Sym × Node) :=
  match cs with
  | [] => [(k, v)]
  | (k', t) :: rest =>
    if k' = k then (k, v) :: rest else (k', t) :: setChild rest k v

/-- Python `del d[k]`: remove the (unique) entry with key `k`. -/
def delChild (cs : List (Sym × Node)) (k : Sym) : List (Sym × Node) :=
  match cs with
  | [] => []
  | (k', t) :: rest =>
    if k' = k then rest else (k', t) :: delChild rest k

/-- `Trie.add` (`morphology.py` lines 47-60) on a sequence of symbols:
walk/create a node for each symbol, then set the terminal marker. -/
def addSeq (t : Node) (s : List Sym) : Node :=
  match s with
  | [] => .mk t.children true
  | k :: rest =>
    match lookupChild t.children k with
    | some child => .mk (setChild t.children k (addSeq child rest)) t.term
    | none => .mk (t.children ++ [(k, addSeq Node.empty rest)]) t.term

/-- `Trie.__getitem__` (`morphology.py` lines 24-33): the node reached by a
sequence of symbols, or `none` for the `KeyError` case. -/
def nodeAt (t : Node) (s : List Sym) : Option Node :=
  match s with
  | [] => some t
  | k :: rest =>
    match lookupChild t.children k with
    | some child => nodeAt child rest
    | none => none

/-- `Trie.__contains__` (`morphology.py` lines 35-42): walk the path and
check for the terminal marker; a missing prefix means `false`. -/
def containsSeq (t : Node) (s : List Sym) : Bool :=
  match nodeAt t s with
  | some n => n.term
  | none => false

mutual
/-- All root-to-terminal-marker symbol sequences of a node.  This is the
observable content of the trie (what `starts_with` called at the root
enumerates). -/
def termPaths : Node → List (List Sym)
  | .mk cs b => (if b then [[]] else []) ++ termPathsList cs

/-- `termPaths` over a children list. -/
def termPathsList : List (Sym × Node) → List (List Sym)
  | [] => []
  | (k, t) :: rest => (termPaths t).map (k :: ·) ++ termPathsList rest
end

mutual
/-- Number of terminal markers in a node's subtree (the number of
completed entries below it, which `Trie.num_words` computes). -/
def numMarkers : Node → Nat
  | .mk cs b => (if b then 1 else 0) + numMarkersList cs

/-- `numMarkers` summed over a children list. -/
def numMarkersList : List (Sym × Node) → Nat
  | [] => 0
  | (_, t) :: rest => numMarkers t + numMarkersList rest
end

mutual
/-- Number of child entries in a subtree (dict entries, terminal markers
not counted). -/
def numEntries : Node → Nat
  | .mk cs _ => numEntriesList cs

/-- `numEntries` over a children list, counting the entries themselves. -/
def numEntriesList : List (Sym × Node) → Nat
  | [] => 0
  | (_, t) :: rest => 1 + numEntries t + numEntriesList rest
end

mutual
/-- Sum, over every child entry in the subtree, of its depth (the root's
own entries have depth 1).  This is the decreasing measure of the
`collapse_endings` merge loop: a merge re-parents a depth-2 subtree at
depth 1. -/
def depthSum : Node → Nat
  | .mk cs _ => depthSumList cs

/-- `depthSum` over a children list. -/
def depthSumList : List (Sym × Node) → Nat
  | [] => 0
  | (_, t) :: rest => 1 + numEntries t + depthSum t + depthSumList rest
end

mutual
/-- Every node of the subtree has duplicate-free child keys — true of any
Python dict trie by construction. -/
def wfNode : Node → Prop
  | .mk cs _ => (cs.map Prod.fst).Nodup ∧ wfList cs

/-- `wfNode` over a children list. -/
def wfList : List (Sym × Node) → Prop
  | [] => True
  | (_, t) :: rest => wfNode t ∧ wfList rest
end

mutual
def wfNodeDec : (t : Node) → Decidable (wfNode t)
  | .mk cs _ =>
    haveI := wfListDec cs
    decidable_of_iff ((cs.map Prod.fst).Nodup ∧ wfList cs) (by rw [wfNode])
def wfListDec : (cs : List (Sym × Node)) → Decidable (wfList cs)
  | [] => .isTrue (by rw [wfList]; trivial)
  | (_, t) :: rest =>
    haveI := wfNodeDec t
    haveI := wfListDec rest
    decidable_of_iff (wfNode t ∧ wfList rest) (by rw [wfList])
end

instance : (t : Node) → Decidable (wfNode t) := wfNodeDec
instance : (cs : List (Sym × Node)) → Decidable (wfList cs) := wfListDec

mutual
/-- No child key anywhere in the subtree is the empty string.  True of
every trie the program builds (all inserted symbols are nonempty);
`_split_chunks` tests keys with Python truthiness (`if key:`), so an
empty-string key would be conflated with the `None` marker. -/
def noEmptySym : Node → Prop
  | .mk cs _ => noEmptySymList cs

/-- `noEmptySym` over a children list. -/
def noEmptySymList : List (Sym × Node) → Prop
  | [] => True
  | (k, t) :: rest => k ≠ [] ∧ noEmptySym t ∧ noEmptySymList rest
end

mutual
def noEmptySymDec : (t : Node) → Decidable (noEmptySym t)
  | .mk cs _ =>
    haveI := noEmptySymListDec cs
    decidable_of_iff (noEmptySymList cs) (by rw [noEmptySym])
def noEmptySymListDec : (cs : List (Sym × Node)) → Decidable (noEmptySymList cs)
  | [] => .isTrue (by rw [noEmptySymList]; trivial)
  | (k, t) :: rest =>
    haveI := noEmptySymDec t
    haveI := noEmptySymListDec rest
    decidable_of_iff (k ≠ [] ∧ noEmptySym t ∧ noEmptySymList rest)
      (by rw [noEmptySymList])
end

instance : (t : Node) → Decidable (noEmptySym t) := noEmptySymDec
instance : (cs : List (Sym × Node)) → Decidable (noEmptySymList cs) :=
  noEmptySymListDec

/-!
## `MorphemeTrie._split_chunks` (`morphology.py` lines 117-163)

The recursive rewrite of a character trie into chunk sequences.  We
return the list of chunk sequences the Python method passes to
`self.add`; `MorphemeTrie.__init__` inserts them into the chunk trie in
that order.  Notes on fidelity:

* a node with exactly one key descends, accumulating the key into the
  current chunk, unless that key is falsy (`None`, or the empty string,
  which `if key:` conflates with `None`), in which case the chunk
  sequence is emitted;
* at a node with any other number of keys, the current chunk (if
  nonempty) is closed, the terminal marker emits the sequence gathered so
  far, and each child is entered with a fresh chunk.  We emit the
  terminal-marker sequence before the children; the Python emission
  order follows dict insertion order, which affects only the order of
  `self.add` calls, not the resulting trie content;
* `chunks`/`current_chunk` are restored around each recursive call in the
  Python (append/pop on the shared deque), so passing them functionally
  is equivalent; `if not chunks:` replaces an empty deque by a fresh
  empty deque, a no-op; `if not current_node:` fires only on an empty
  dict, which never occurs as an interior node of a trie built by `add`.
-/

mutual
/-- The chunk sequences `_split_chunks` emits below a node, given the
chunk sequence `pre` gathered so far and the accumulating chunk `cur`. -/
def splitChunks : Node → List Sym → Sym → List (List Sym)
  | .mk [(k, t)] false, pre, cur =>
    if k = [] then [pre ++ [cur]] else splitChunks t pre (cur ++ k)
  | .mk [] true, pre, cur => [pre ++ [cur]]
  | .mk cs b, pre, cur =>
    let pre' := if cur = [] then pre else pre ++ [cur]
    (if b then [pre'] else []) ++ splitChunksList cs pre'

/-- The per-child emissions of the branching case of `_split_chunks`:
each truthy key starts a fresh chunk; a falsy (empty-string) key emits
the gathered sequence like the `None` marker does. -/
def splitChunksList : List (Sym × Node) → List Sym → List (List Sym)
  | [], _ => []
  | (k, t) :: rest, pre =>
    (if k = [] then [pre] else splitChunks t pre k) ++ splitChunksList rest pre
end

/-- The two-level key `make_tries` inserts for a word:
`[word[:k]] + list(word[k:])` (`morphology.py` lines 240-242). -/
def symbolize (w : List Char) (k : Nat) : List Sym :=
  w.take k :: (w.drop k).map (fun c => [c])

/-- The letter trie `make_tries` builds over a word list
(`morphology.py` lines 236-242). -/
def buildLetterTrie (words : List (List Char)) (k : Nat) : Node :=
  words.foldl (fun t w => addSeq t (symbolize w k)) Node.empty

/-- The chunk trie `MorphemeTrie.__init__` builds from a letter trie:
every sequence `_split_chunks` emits is inserted with `self.add`. -/
def buildChunkTrie (letter : Node) : Node :=
  (splitChunks letter [] []).foldl addSeq Node.empty

/-- `chunk_trie_ltr` of `make_tries`: forward-built chunk trie. -/
def chunkTrieLTR (words : List (List Char)) (k : Nat) : Node :=
  buildChunkTrie (buildLetterTrie words k)

/-- `chunk_trie_rtl` of `make_tries`: chunk trie over every word's
reversed spelling (`word[::-1]`). -/
def chunkTrieRTL (words : List (List Char)) (k : Nat) : Node :=
  buildChunkTrie (buildLetterTrie (words.map List.reverse) k)

/-!
## Basic association-list and `addSeq` lemmas
-/

theorem lookupChild_setChild_self {cs : List (Sym × Node)} {k : Sym}
    (v : Node) (h : (lookupChild cs k).isSome) :
    lookupChild (setChild cs k v) k = some v := by
  induction cs with
  | nil => simp [lookupChild] at h
  | cons hd tl ih =>
    obtain ⟨k', t⟩ := hd
    by_cases hk : k' = k
    · simp [lookupChild, setChild, hk]
    · simp only [lookupChild, setChild, if_neg hk] at h ⊢
      exact ih h

theorem lookupChild_setChild_ne {cs : List (Sym × Node)} {k k1 : Sym}
    (v : Node) (hne : k1 ≠ k) :
    lookupChild (setChild cs k v) k1 = lookupChild cs k1 := by
  induction cs with
  | nil => simp [lookupChild, setChild, Ne.symm hne]
  | cons hd tl ih =>
    obtain ⟨k', t⟩ := hd
    by_cases hk : k' = k
    · subst hk
      simp [lookupChild, setChild, Ne.symm hne]
    · simp [lookupChild, setChild, if_neg hk, ih]

theorem lookupChild_append_of_isSome {cs : List (Sym × Node)} {k1 : Sym}
    (ds : List (Sym × Node)) (h : (lookupChild cs k1).isSome) :
    lookupChild (cs ++ ds) k1 = lookupChild cs k1 := by
  induction cs with
  | nil => simp [lookupChild] at h
  | cons hd tl ih =>
    obtain ⟨k', t⟩ := hd
    by_cases hk : k' = k1
    · simp [lookupChild, hk]
    · simp only [lookupChild, if_neg hk, List.cons_append] at h ⊢
      exact ih h

theorem lookupChild_append_of_none {cs : List (Sym × Node)} {k1 : Sym}
    (ds : List (Sym × Node)) (h : lookupChild cs k1 = none) :
    lookupChild (cs ++ ds) k1 = lookupChild ds k1 := by
  induction cs with
  | nil => simp [lookupChild]
  | cons hd tl ih =>
    obtain ⟨k', t⟩ := hd
    by_cases hk : k' = k1
    · simp [lookupChild, hk] at h
    · simp only [lookupChild, if_neg hk, List.cons_append] at h ⊢
      exact ih h

theorem containsSeq_addSeq_self (s : List Sym) (t : Node) :
    containsSeq (addSeq t s) s = true := by
  induction s generalizing t with
  | nil => simp [addSeq, containsSeq, nodeAt, Node.term]
  | cons k rest ih =>
    obtain ⟨cs, b⟩ := t
    cases h : lookupChild cs k with
    | some child =>
      have hsome : (lookupChild cs k).isSome := by simp [h]
      simp only [addSeq, Node.children, h, containsSeq, nodeAt,
        lookupChild_setChild_self _ hsome]
      exact ih child
    | none =>
      have hk : lookupChild (cs ++ [(k, addSeq Node.empty rest)]) k =
          some (addSeq Node.empty rest) := by
        rw [lookupChild_append_of_none _ h]; simp [lookupChild]
      simp only [addSeq, Node.children, h, containsSeq, nodeAt, hk]
      exact ih Node.empty

theorem containsSeq_addSeq_mono (s2 s1 : List Sym) (t : Node)
    (h : containsSeq t s1 = true) :
    containsSeq (addSeq t s2) s1 = true := by
  induction s2 generalizing t s1 with
  | nil =>
    obtain ⟨cs, b⟩ := t
    cases s1 with
    | nil => simp [addSeq, containsSeq, nodeAt, Node.term]
    | cons k1 r1 =>
      simpa [addSeq, containsSeq, nodeAt, Node.children] using h
  | cons k2 r2 ih =>
    obtain ⟨cs, b⟩ := t
    cases h2 : lookupChild cs k2 with
    | some child =>
      have hsome : (lookupChild cs k2).isSome := by simp [h2]
      cases s1 with
      | nil =>
        simpa [addSeq, Node.children, h2, containsSeq, nodeAt,
          Node.term] using h
      | cons k1 r1 =>
        by_cases hk : k1 = k2
        · subst hk
          simp only [containsSeq, nodeAt, Node.children, h2] at h
          simp only [addSeq, Node.children, h2, containsSeq, nodeAt,
            lookupChild_setChild_self _ hsome]
          exact ih r1 child h
        · simp only [addSeq, Node.children, h2, containsSeq, nodeAt,
            lookupChild_setChild_ne _ hk]
          simpa [containsSeq, nodeAt, Node.children] using h
    | none =>
      cases s1 with
      | nil =>
        simpa [addSeq, Node.children, h2, containsSeq, nodeAt,
          Node.term] using h
      | cons k1 r1 =>
        simp only [containsSeq, nodeAt, Node.children] at h
        cases h1 : lookupChild cs k1 with
        | some c1 =>
          have h1s : (lookupChild cs k1).isSome := by simp [h1]
          simp only [addSeq, Node.children, h2, containsSeq, nodeAt,
            lookupChild_append_of_isSome _ h1s, h1]
          simpa [h1, containsSeq, nodeAt] using h
        | none => simp [h1] at h

/-!
## `termPaths` theory: the observable content of a trie
-/

theorem termPathsList_append (xs ys : List (Sym × Node)) :
    termPathsList (xs ++ ys) = termPathsList xs ++ termPathsList ys := by
  induction xs with
  | nil => simp [termPathsList]
  | cons hd tl ih =>
    obtain ⟨k, t⟩ := hd
    simp [termPathsList, ih]

theorem mem_termPathsList {p : List Sym} {cs : List (Sym × Node)} :
    p ∈ termPathsList cs ↔
      ∃ k t r, (k, t) ∈ cs ∧ p = k :: r ∧ r ∈ termPaths t := by
  induction cs with
  | nil => simp [termPathsList]
  | cons hd tl ih =>
    obtain ⟨k, t⟩ := hd
    simp only [termPathsList, List.mem_append, List.mem_map, ih,
      List.mem_cons]
    constructor
    · rintro (⟨r, hr, rfl⟩ | ⟨k', t', r, hm, rfl, hr⟩)
      · exact ⟨k, t, r, Or.inl rfl, rfl, hr⟩
      · exact ⟨k', t', r, Or.inr hm, rfl, hr⟩
    · rintro ⟨k', t', r, hm | hm, rfl, hr⟩
      · obtain ⟨rfl, rfl⟩ := Prod.mk.injEq .. ▸ hm
        exact Or.inl ⟨r, hr, rfl⟩
      · exact Or.inr ⟨k', t', r, hm, rfl, hr⟩

theorem ne_nil_of_mem_termPathsList {p : List Sym} {cs : List (Sym × Node)}
    (h : p ∈ termPathsList cs) : p ≠ [] := by
  obtain ⟨k, t, r, _, rfl, _⟩ := mem_termPathsList.mp h
  simp

theorem mem_of_lookupChild {cs : List (Sym × Node)} {k : Sym} {t : Node}
    (h : lookupChild cs k = some t) : (k, t) ∈ cs := by
  induction cs with
  | nil => simp [lookupChild] at h
  | cons hd tl ih =>
    obtain ⟨k', t'⟩ := hd
    by_cases hk : k' = k
    · rw [show lookupChild ((k', t') :: tl) k =
          if k' = k then some t' else lookupChild tl k from rfl,
        if_pos hk] at h
      obtain rfl := Option.some.injEq .. ▸ h
      subst hk; exact List.mem_cons_self _ _
    · simp only [lookupChild, if_neg hk] at h
      exact List.mem_cons_of_mem _ (ih h)

theorem lookupChild_eq_of_mem {cs : List (Sym × Node)} {k : Sym} {t : Node}
    (hnd : (cs.map Prod.fst).Nodup) (hm : (k, t) ∈ cs) :
    lookupChild cs k = some t := by
  induction cs with
  | nil => simp at hm
  | cons hd tl ih =>
    obtain ⟨k', t'⟩ := hd
    simp only [List.map_cons, List.nodup_cons] at hnd
    rcases List.mem_cons.mp hm with h | h
    · obtain ⟨rfl, rfl⟩ := Prod.mk.injEq .. ▸ h
      simp [lookupChild]
    · have hk : k' ≠ k := by
        rintro rfl
        exact hnd.1 (List.mem_map.mpr ⟨(k', t), h, rfl⟩)
      simp only [lookupChild, if_neg hk]
      exact ih hnd.2 h

theorem lookupChild_eq_none_iff {cs : List (Sym × Node)} {k : Sym} :
    lookupChild cs k = none ↔ k ∉ cs.map Prod.fst := by
  induction cs with
  | nil => simp [lookupChild]
  | cons hd tl ih =>
    obtain ⟨k', t'⟩ := hd
    by_cases hk : k' = k
    · subst hk; simp [lookupChild]
    · simp [lookupChild, if_neg hk, ih, Ne.symm hk]

theorem wfList_iff {cs : List (Sym × Node)} :
    wfList cs ↔ ∀ e ∈ cs, wfNode e.2 := by
  induction cs with
  | nil => simp [wfList]
  | cons hd tl ih =>
    obtain ⟨k, t⟩ := hd
    rw [wfList]
    simp [ih]

theorem noEmptySymList_iff {cs : List (Sym × Node)} :
    noEmptySymList cs ↔ ∀ e ∈ cs, e.1 ≠ [] ∧ noEmptySym e.2 := by
  induction cs with
  | nil => simp [noEmptySymList]
  | cons hd tl ih =>
    obtain ⟨k, t⟩ := hd
    rw [noEmptySymList]
    simp only [List.mem_cons, forall_eq_or_imp, ih]
    tauto

theorem mem_termPathsList_setChild {cs : List (Sym × Node)} {k : Sym}
    {child v : Node} {rest : List Sym}
    (h : lookupChild cs k = some child)
    (hv : ∀ q, q ∈ termPaths v ↔ q = rest ∨ q ∈ termPaths child) :
    ∀ p, p ∈ termPathsList (setChild cs k v) ↔
      p = k :: rest ∨ p ∈ termPathsList cs := by
  induction cs with
  | nil => simp [lookupChild] at h
  | cons hd tl ih =>
    obtain ⟨k', t⟩ := hd
    intro p
    by_cases hk : k' = k
    · rw [show lookupChild ((k', t) :: tl) k =
          if k' = k then some t else lookupChild tl k from rfl,
        if_pos hk] at h
      obtain rfl := Option.some.injEq .. ▸ h
      subst hk
      simp only [setChild, if_pos rfl, termPathsList, List.mem_append,
        List.mem_map]
      constructor
      · rintro (⟨q, hq, rfl⟩ | hp)
        · rcases (hv q).mp hq with rfl | hq'
          · exact Or.inl rfl
          · exact Or.inr (Or.inl ⟨q, hq', rfl⟩)
        · exact Or.inr (Or.inr hp)
      · rintro (rfl | ⟨q, hq, rfl⟩ | hp)
        · exact Or.inl ⟨rest, (hv rest).mpr (Or.inl rfl), rfl⟩
        · exact Or.inl ⟨q, (hv q).mpr (Or.inr hq), rfl⟩
        · exact Or.inr hp
    · simp only [lookupChild, if_neg hk] at h
      simp only [setChild, if_neg hk, termPathsList, List.mem_append,
        ih h p]
      tauto

theorem termPaths_empty : termPaths Node.empty = [] := by
  simp [Node.empty, termPaths, termPathsList]

theorem mem_termPaths_addSeq :
    ∀ (s : List Sym) (t : Node) (p : List Sym),
      p ∈ termPaths (addSeq t s) ↔ p = s ∨ p ∈ termPaths t := by
  intro s
  induction s with
  | nil =>
    intro t p
    obtain ⟨cs, b⟩ := t
    have he : termPaths (addSeq (Node.mk cs b) []) = [] :: termPathsList cs := by
      cases b <;> simp [addSeq, termPaths, Node.children]
    rw [he]
    cases b
    · rw [show termPaths (Node.mk cs false) = termPathsList cs from by
        simp [termPaths]]
      simp [List.mem_cons]
    · rw [show termPaths (Node.mk cs true) = [] :: termPathsList cs from by
        simp [termPaths]]
      simp only [List.mem_cons]
      tauto
  | cons k rest ih =>
    intro t p
    obtain ⟨cs, b⟩ := t
    cases hl : lookupChild cs k with
    | some child =>
      have hmem := mem_termPathsList_setChild (v := addSeq child rest)
        hl (fun q => ih child q) p
      simp only [addSeq, Node.children, hl, termPaths, List.mem_append,
        hmem]
      cases b <;> simp <;> tauto
    | none =>
      simp only [addSeq, Node.children, hl, termPaths, List.mem_append,
        termPathsList_append]
      have : p ∈ termPathsList [(k, addSeq Node.empty rest)] ↔
          p = k :: rest := by
        simp only [termPathsList, List.append_nil, List.mem_map]
        constructor
        · rintro ⟨q, hq, rfl⟩
          rcases (ih Node.empty q).mp hq with rfl | hq'
          · rfl
          · rw [termPaths_empty] at hq'; simp at hq'
        · rintro rfl
          exact ⟨rest, (ih Node.empty rest).mpr (Or.inl rfl), rfl⟩
      rw [this]
      cases b <;> simp <;> tauto

theorem containsSeq_iff_mem_termPaths :
    ∀ (s : List Sym) (t : Node), wfNode t →
      (containsSeq t s = true ↔ s ∈ termPaths t) := by
  intro s
  induction s with
  | nil =>
    intro t hwf
    obtain ⟨cs, b⟩ := t
    have hnil : [] ∉ termPathsList cs := fun h =>
      ne_nil_of_mem_termPathsList h rfl
    cases b <;>
      simp [containsSeq, nodeAt, Node.term, termPaths, hnil]
  | cons k rest ih =>
    intro t hwf
    obtain ⟨cs, b⟩ := t
    rw [wfNode] at hwf
    have hmain : (k :: rest) ∈ termPathsList cs ↔
        ∃ t', (k, t') ∈ cs ∧ rest ∈ termPaths t' := by
      rw [mem_termPathsList]
      constructor
      · rintro ⟨k', t', r, hm, he, hr⟩
        obtain ⟨rfl, rfl⟩ := List.cons.injEq .. ▸ he
        exact ⟨t', hm, hr⟩
      · rintro ⟨t', hm, hr⟩
        exact ⟨k, t', rest, hm, rfl, hr⟩
    have hiff : (k :: rest) ∈ termPaths (Node.mk cs b) ↔
        ∃ t', (k, t') ∈ cs ∧ rest ∈ termPaths t' := by
      cases b <;>
        simp [termPaths, List.mem_append, hmain]
    rw [hiff]
    cases hl : lookupChild cs k with
    | some child =>
      have hchild : wfNode child :=
        wfList_iff.mp hwf.2 _ (mem_of_lookupChild hl)
      simp only [containsSeq, nodeAt, Node.children, hl]
      rw [show (match nodeAt child rest with
            | some n => n.term
            | none => false) = containsSeq child rest from rfl]
      rw [ih child hchild]
      constructor
      · intro hr; exact ⟨child, mem_of_lookupChild hl, hr⟩
      · rintro ⟨t', hm, hr⟩
        have := lookupChild_eq_of_mem hwf.1 hm
        rw [hl] at this
        obtain rfl := Option.some.injEq .. ▸ this
        exact hr
    | none =>
      simp only [containsSeq, nodeAt, Node.children, hl]
      constructor
      · intro h; simp at h
      · rintro ⟨t', hm, hr⟩
        have : k ∈ cs.map Prod.fst := List.mem_map.mpr ⟨(k, t'), hm, rfl⟩
        exact absurd this (lookupChild_eq_none_iff.mp hl)

/-!
## Well-formedness and empty-symbol freedom are preserved by `add`
-/

theorem keys_setChild {cs : List (Sym × Node)} {k : Sym} (v : Node)
    (h : (lookupChild cs k).isSome) :
    (setChild cs k v).map Prod.fst = cs.map Prod.fst := by
  induction cs with
  | nil => simp [lookupChild] at h
  | cons hd tl ih =>
    obtain ⟨k', t⟩ := hd
    by_cases hk : k' = k
    · subst hk
      simp [setChild]
    · simp only [lookupChild, if_neg hk] at h
      simp [setChild, if_neg hk, ih h]

theorem wfList_setChild {cs : List (Sym × Node)} {k : Sym} {v : Node}
    (hv : wfNode v) (h : wfList cs) : wfList (setChild cs k v) := by
  induction cs with
  | nil =>
    rw [setChild, wfList]
    rw [wfList] at *
    exact ⟨hv, h⟩
  | cons hd tl ih =>
    obtain ⟨k', t⟩ := hd
    rw [wfList] at h
    by_cases hk : k' = k
    · rw [show setChild ((k', t) :: tl) k v =
          if k' = k then (k, v) :: tl else (k', t) :: setChild tl k v
          from rfl, if_pos hk, wfList]
      exact ⟨hv, h.2⟩
    · rw [show setChild ((k', t) :: tl) k v =
          if k' = k then (k, v) :: tl else (k', t) :: setChild tl k v
          from rfl, if_neg hk, wfList]
      exact ⟨h.1, ih h.2⟩

theorem wf_empty : wfNode Node.empty := by
  rw [Node.empty, wfNode, wfList]
  simp

theorem wf_addSeq : ∀ (s : List Sym) (t : Node), wfNode t →
    wfNode (addSeq t s) := by
  intro s
  induction s with
  | nil =>
    intro t h
    obtain ⟨cs, b⟩ := t
    rw [show addSeq (Node.mk cs b) [] = Node.mk cs true from rfl]
    rw [wfNode] at h ⊢
    exact h
  | cons k rest ih =>
    intro t h
    obtain ⟨cs, b⟩ := t
    rw [wfNode] at h
    cases hl : lookupChild cs k with
    | some child =>
      have hsome : (lookupChild cs k).isSome := by simp [hl]
      have hchild : wfNode child :=
        wfList_iff.mp h.2 _ (mem_of_lookupChild hl)
      rw [show addSeq (Node.mk cs b) (k :: rest) =
          Node.mk (setChild cs k (addSeq child rest)) b from by
            simp [addSeq, Node.children, Node.term, hl], wfNode]
      rw [keys_setChild _ hsome]
      exact ⟨h.1, wfList_setChild (ih child hchild) h.2⟩
    | none =>
      rw [show addSeq (Node.mk cs b) (k :: rest) =
          Node.mk (cs ++ [(k, addSeq Node.empty rest)]) b from by
            simp [addSeq, Node.children, Node.term, hl], wfNode]
      constructor
      · rw [List.map_append]
        simp only [List.map_cons, List.map_nil]
        rw [List.nodup_append]
        refine ⟨h.1, List.nodup_singleton _, ?_⟩
        intro a ha hb
        simp only [List.mem_singleton] at hb
        subst hb
        exact lookupChild_eq_none_iff.mp hl ha
      · rw [wfList_iff]
        intro e he
        rcases List.mem_append.mp he with he | he
        · exact wfList_iff.mp h.2 _ he
        · simp only [List.mem_singleton] at he
          subst he
          exact ih Node.empty wf_empty

theorem noEmptySymList_setChild {cs : List (Sym × Node)} {k : Sym}
    {v : Node} (hv : noEmptySym v) (h : noEmptySymList cs)
    (hk : (lookupChild cs k).isSome) :
    noEmptySymList (setChild cs k v) := by
  induction cs with
  | nil => simp [lookupChild] at hk
  | cons hd tl ih =>
    obtain ⟨k', t⟩ := hd
    rw [noEmptySymList] at h
    by_cases hkk : k' = k
    · rw [show setChild ((k', t) :: tl) k v =
          if k' = k then (k, v) :: tl else (k', t) :: setChild tl k v
          from rfl, if_pos hkk, noEmptySymList]
      exact ⟨hkk ▸ h.1, hv, h.2.2⟩
    · simp only [lookupChild, if_neg hkk] at hk
      rw [show setChild ((k', t) :: tl) k v =
          if k' = k then (k, v) :: tl else (k', t) :: setChild tl k v
          from rfl, if_neg hkk, noEmptySymList]
      exact ⟨h.1, h.2.1, ih h.2.2 hk⟩

theorem noEmpty_empty : noEmptySym Node.empty := by
  rw [Node.empty, noEmptySym, noEmptySymList]
  trivial

theorem noEmpty_addSeq : ∀ (s : List Sym) (t : Node), noEmptySym t →
    (∀ x ∈ s, x ≠ []) → noEmptySym (addSeq t s) := by
  intro s
  induction s with
  | nil =>
    intro t h _
    obtain ⟨cs, b⟩ := t
    rw [show addSeq (Node.mk cs b) [] = Node.mk cs true from rfl]
    rw [noEmptySym] at h ⊢
    exact h
  | cons k rest ih =>
    intro t h hs
    obtain ⟨cs, b⟩ := t
    rw [noEmptySym] at h
    have hrest : ∀ x ∈ rest, x ≠ [] := fun x hx =>
      hs x (List.mem_cons_of_mem _ hx)
    cases hl : lookupChild cs k with
    | some child =>
      have hsome : (lookupChild cs k).isSome := by simp [hl]
      have hchild : noEmptySym child :=
        (noEmptySymList_iff.mp h _ (mem_of_lookupChild hl)).2
      rw [show addSeq (Node.mk cs b) (k :: rest) =
          Node.mk (setChild cs k (addSeq child rest)) b from by
            simp [addSeq, Node.children, Node.term, hl], noEmptySym]
      exact noEmptySymList_setChild (ih child hchild hrest) h hsome
    | none =>
      rw [show addSeq (Node.mk cs b) (k :: rest) =
          Node.mk (cs ++ [(k, addSeq Node.empty rest)]) b from by
            simp [addSeq, Node.children, Node.term, hl], noEmptySym]
      rw [noEmptySymList_iff]
      intro e he
      rcases List.mem_append.mp he with he | he
      · exact noEmptySymList_iff.mp h _ he
      · simp only [List.mem_singleton] at he
        subst he
        exact ⟨hs k (List.mem_cons_self _ _),
          ih Node.empty noEmpty_empty hrest⟩

/-!
## The key `_split_chunks` lemma: joining each emitted chunk sequence
recovers exactly the joined symbol paths of the letter trie.
-/

theorem flatten_ifPre (pre : List Sym) (cur : Sym) :
    (if cur = [] then pre else pre ++ [cur]).flatten = pre.flatten ++ cur := by
  by_cases hc : cur = []
  · subst hc; simp
  · rw [if_neg hc]
    simp

mutual
theorem splitChunks_join (t : Node) (pre : List Sym) (cur : Sym)
    (h : noEmptySym t) :
    (splitChunks t pre cur).map List.flatten =
      (termPaths t).map (fun q => pre.flatten ++ (cur ++ q.flatten)) := by
  obtain ⟨cs, b⟩ := t
  rw [noEmptySym] at h
  match cs, b with
  | [], true =>
    rw [splitChunks.eq_2]
    simp [termPaths, termPathsList]
  | [], false =>
    rw [splitChunks.eq_3 _ _ _ _ (by intro k t h1 h2; simp at h1)
      (by intro h1 h2; simp at h2)]
    simp [termPaths, termPathsList, splitChunksList]
  | [(k, t')], false =>
    rw [noEmptySymList] at h
    rw [splitChunks.eq_1, if_neg h.1]
    rw [splitChunks_join t' pre (cur ++ k) h.2.1]
    rw [show termPaths (Node.mk [(k, t')] false) =
        (termPaths t').map (k :: ·) from by
          simp [termPaths, termPathsList]]
    rw [List.map_map]
    refine List.map_congr_left fun q hq => ?_
    simp [List.append_assoc]
  | [(k, t')], true =>
    rw [splitChunks.eq_3 _ _ _ _ (by intro k'' t'' h1 h2; simp at h2)
      (by intro h1 h2; simp at h1)]
    rw [if_pos rfl, List.map_append, splitChunksList_join [(k, t')] _ h]
    rw [show termPaths (Node.mk [(k, t')] true) =
        [] :: (termPaths t').map (k :: ·) from by
          simp [termPaths, termPathsList]]
    rw [show termPathsList [(k, t')] = (termPaths t').map (k :: ·) from by
      simp [termPathsList]]
    simp only [List.map_cons, List.map_map, List.map_nil,
      List.singleton_append, flatten_ifPre]
    refine congrArg₂ _ (by simp) ?_
    refine List.map_congr_left fun q hq => ?_
    simp [List.append_assoc]
  | c₁ :: c₂ :: rest, b =>
    rw [splitChunks.eq_3 _ _ _ _ (by intro k t h1 h2; simp at h1)
      (by intro h1 h2; simp at h1)]
    rw [show termPaths (Node.mk (c₁ :: c₂ :: rest) b) =
        (if b then [[]] else []) ++ termPathsList (c₁ :: c₂ :: rest) from by
          rw [termPaths]]
    rw [List.map_append, List.map_append]
    rw [splitChunksList_join (c₁ :: c₂ :: rest) _ h]
    refine congrArg₂ _ ?_ ?_
    · cases b <;> simp [flatten_ifPre]
    · refine List.map_congr_left fun q hq => ?_
      simp [flatten_ifPre, List.append_assoc]

theorem splitChunksList_join (cs : List (Sym × Node)) (pre : List Sym)
    (h : noEmptySymList cs) :
    (splitChunksList cs pre).map List.flatten =
      (termPathsList cs).map (fun q => pre.flatten ++ q.flatten) := by
  match cs with
  | [] => simp [splitChunksList, termPathsList]
  | (k, t) :: rest =>
    rw [noEmptySymList] at h
    rw [show splitChunksList ((k, t) :: rest) pre =
        (if k = [] then [pre] else splitChunks t pre k) ++
          splitChunksList rest pre from by rw [splitChunksList],
      if_neg h.1]
    rw [show termPathsList ((k, t) :: rest) =
        (termPaths t).map (k :: ·) ++ termPathsList rest from by
          rw [termPathsList]]
    rw [List.map_append, List.map_append]
    rw [splitChunks_join t pre k h.2.1, splitChunksList_join rest pre h.2.2]
    refine congrArg₂ _ ?_ rfl
    rw [List.map_map]
    refine List.map_congr_left fun q hq => ?_
    simp
end

/-!
## Characterizing the tries `make_tries` builds
-/

theorem wf_foldl_addSeq : ∀ (l : List (List Sym)) (t : Node), wfNode t →
    wfNode (l.foldl addSeq t) := by
  intro l
  induction l with
  | nil => intro t h; exact h
  | cons s rest ih =>
    intro t h
    exact ih _ (wf_addSeq s t h)

theorem mem_termPaths_foldl_addSeq :
    ∀ (l : List (List Sym)) (t : Node) (p : List Sym),
      p ∈ termPaths (l.foldl addSeq t) ↔ p ∈ l ∨ p ∈ termPaths t := by
  intro l
  induction l with
  | nil => intro t p; simp
  | cons s rest ih =>
    intro t p
    rw [List.foldl_cons, ih, mem_termPaths_addSeq]
    simp only [List.mem_cons]
    tauto

theorem buildLetterTrie_eq_foldl (words : List (List Char)) (k : Nat) :
    buildLetterTrie words k =
      (words.map (fun w => symbolize w k)).foldl addSeq Node.empty := by
  rw [buildLetterTrie, List.foldl_map]

theorem mem_termPaths_buildLetterTrie {words : List (List Char)} {k : Nat}
    {p : List Sym} :
    p ∈ termPaths (buildLetterTrie words k) ↔
      ∃ w ∈ words, p = symbolize w k := by
  rw [buildLetterTrie_eq_foldl, mem_termPaths_foldl_addSeq,
    termPaths_empty]
  simp [eq_comm]

theorem flatten_map_singleton (l : List Char) :
    (l.map (fun c => [c])).flatten = l := by
  induction l with
  | nil => simp
  | cons c rest ih => simp [ih]

theorem flatten_symbolize (w : List Char) (k : Nat) :
    (symbolize w k).flatten = w := by
  rw [symbolize, List.flatten_cons, flatten_map_singleton,
    List.take_append_drop]

theorem symbolize_syms_ne_nil {w : List Char} {k : Nat} (hk : 1 ≤ k)
    (hw : 1 ≤ w.length) : ∀ x ∈ symbolize w k, x ≠ [] := by
  intro x hx
  rw [symbolize] at hx
  rcases List.mem_cons.mp hx with rfl | hx
  · intro hnil
    rcases List.take_eq_nil_iff.mp hnil with h | h
    · omega
    · subst h; simp at hw
  · obtain ⟨c, _, rfl⟩ := List.mem_map.mp hx
    simp

theorem noEmpty_buildLetterTrie {words : List (List Char)} {k : Nat}
    (hk : 1 ≤ k) (hw : ∀ w ∈ words, 1 ≤ w.length) :
    noEmptySym (buildLetterTrie words k) := by
  rw [buildLetterTrie_eq_foldl]
  have : ∀ (l : List (List Char)) (t : Node), noEmptySym t →
      (∀ w ∈ l, 1 ≤ w.length) →
      noEmptySym ((l.map (fun w => symbolize w k)).foldl addSeq t) := by
    intro l
    induction l with
    | nil => intro t h _; exact h
    | cons w rest ih =>
      intro t h hl
      rw [List.map_cons, List.foldl_cons]
      exact ih _ (noEmpty_addSeq _ _ h
          (symbolize_syms_ne_nil hk (hl w (List.mem_cons_self _ _))))
        fun w' hw' => hl w' (List.mem_cons_of_mem _ hw')
  exact this words Node.empty noEmpty_empty hw

theorem wf_buildChunkTrie (letter : Node) : wfNode (buildChunkTrie letter) :=
  wf_foldl_addSeq _ _ wf_empty

theorem containsSeq_buildChunkTrie {letter : Node} {p : List Sym} :
    containsSeq (buildChunkTrie letter) p = true ↔
      p ∈ splitChunks letter [] [] := by
  rw [containsSeq_iff_mem_termPaths _ _ (wf_buildChunkTrie letter),
    buildChunkTrie, mem_termPaths_foldl_addSeq, termPaths_empty]
  simp

theorem chunk_trie_roundtrip_aux (ws : List (List Char)) (k : Nat)
    (hk : 1 ≤ k) (hlen : ∀ w ∈ ws, k ≤ w.length) :
    (∀ p, containsSeq (buildChunkTrie (buildLetterTrie ws k)) p = true →
        p.flatten ∈ ws) ∧
    (∀ w ∈ ws, ∃ p,
        containsSeq (buildChunkTrie (buildLetterTrie ws k)) p = true ∧
        p.flatten = w) := by
  have hne : noEmptySym (buildLetterTrie ws k) :=
    noEmpty_buildLetterTrie hk fun w hw => le_trans hk (hlen w hw)
  have hjoin := splitChunks_join (buildLetterTrie ws k) [] [] hne
  simp only [List.flatten_nil, List.nil_append] at hjoin
  constructor
  · intro p hp
    have hmem : p ∈ splitChunks (buildLetterTrie ws k) [] [] :=
      containsSeq_buildChunkTrie.mp hp
    have : p.flatten ∈
        (splitChunks (buildLetterTrie ws k) [] []).map List.flatten :=
      List.mem_map.mpr ⟨p, hmem, rfl⟩
    rw [hjoin] at this
    obtain ⟨q, hq, hqe⟩ := List.mem_map.mp this
    obtain ⟨w, hw, rfl⟩ := mem_termPaths_buildLetterTrie.mp hq
    rw [← hqe, flatten_symbolize]
    exact hw
  · intro w hw
    have hq : symbolize w k ∈ termPaths (buildLetterTrie ws k) :=
      mem_termPaths_buildLetterTrie.mpr ⟨w, hw, rfl⟩
    have : w ∈ (termPaths (buildLetterTrie ws k)).map
        (fun q => q.flatten) :=
      List.mem_map.mpr ⟨symbolize w k, hq, flatten_symbolize w k⟩
    rw [← hjoin] at this
    obtain ⟨p, hp, hpe⟩ := List.mem_map.mp this
    exact ⟨p, containsSeq_buildChunkTrie.mpr hp, hpe⟩

/-- C1 — Round-trip: for every finite word list and every minimum stem
length `k ≥ 1` (all words at least `k` characters), every root-to-terminal
chunk path of the forward-built `MorphemeTrie` concatenates to exactly one
original word and every word is so represented; the reverse-built trie
does the same for the reversed spellings. -/
theorem chunk_trie_roundtrip (words : List (List Char)) (k : Nat)
    (hk : 1 ≤ k) (hlen : ∀ w ∈ words, k ≤ w.length) :
    (∀ p, containsSeq (chunkTrieLTR words k) p = true →
        p.flatten ∈ words) ∧
    (∀ w ∈ words, ∃ p, containsSeq (chunkTrieLTR words k) p = true ∧
        p.flatten = w) ∧
    (∀ p, containsSeq (chunkTrieRTL words k) p = true →
        p.flatten ∈ words.map List.reverse) ∧
    (∀ w ∈ words, ∃ p, containsSeq (chunkTrieRTL words k) p = true ∧
        p.flatten = w.reverse) := by
  obtain ⟨h1, h2⟩ := chunk_trie_roundtrip_aux words k hk hlen
  have hlenR : ∀ w ∈ words.map List.reverse, k ≤ w.length := by
    intro w hw
    obtain ⟨w', hw', rfl⟩ := List.mem_map.mp hw
    rw [List.length_reverse]
    exact hlen w' hw'
  obtain ⟨h3, h4⟩ := chunk_trie_roundtrip_aux (words.map List.reverse) k
    hk hlenR
  refine ⟨h1, h2, h3, ?_⟩
  intro w hw
  exact h4 w.reverse (List.mem_map.mpr ⟨w, hw, rfl⟩)

/-- Witness for C1 at the word list `["ab", "ba"]` with `k = 1`. -/
theorem chunk_trie_roundtrip_witness :
    (∀ p, containsSeq (chunkTrieLTR [['a','b'], ['b','a']] 1) p = true →
        p.flatten ∈ [['a','b'], ['b','a']]) ∧
    (∀ w ∈ [['a','b'], ['b','a']], ∃ p,
        containsSeq (chunkTrieLTR [['a','b'], ['b','a']] 1) p = true ∧
        p.flatten = w) ∧
    (∀ p, containsSeq (chunkTrieRTL [['a','b'], ['b','a']] 1) p = true →
        p.flatten ∈ ([['a','b'], ['b','a']].map List.reverse)) ∧
    (∀ w ∈ [['a','b'], ['b','a']], ∃ p,
        containsSeq (chunkTrieRTL [['a','b'], ['b','a']] 1) p = true ∧
        p.flatten = w.reverse) :=
  chunk_trie_roundtrip [['a','b'], ['b','a']] 1 (by decide) (by decide)

/-!
## C5 — the walked/walker/walking branch-point scenario
-/

/-- The word list of the branch-point scenario, in the sorted order
`run()` feeds to `make_tries`. -/
def walkWords : List (List Char) :=
  [['w','a','l','k','e','d'], ['w','a','l','k','e','r'],
   ['w','a','l','k','i','n','g']]

/-- C5 counterexample — the claim's chunk path `["walk", "ed"]` is not a
terminal path of the forward chunk trie for {walked, walker, walking}
with `k = 4`; the actual path for "walked" is `["walk", "e", "d"]`
(the letter trie branches again after the shared `e`). -/
theorem branchpoint_counterexample :
    containsSeq (chunkTrieLTR walkWords 4)
        [['w','a','l','k'], ['e','d']] = false ∧
      containsSeq (chunkTrieLTR walkWords 4)
        [['w','a','l','k'], ['e'], ['d']] = true := by
  constructor
  · rfl
  · rfl

/-- C5 amended — with words {walked, walker, walking} and `k = 4`, the
chunk paths are exactly `["walk","e","d"]`, `["walk","e","r"]`, and
`["walk","ing"]`: after the shared stem chunk "walk" the trie branches
into "e" (shared by walked/walker, which then branch into "d"/"r") and
"ing". -/
theorem branchpoint_amended :
    termPaths (chunkTrieLTR walkWords 4) =
      [[['w','a','l','k'], ['e'], ['d']],
       [['w','a','l','k'], ['e'], ['r']],
       [['w','a','l','k'], ['i','n','g']]] := by
  rfl

/-- C9 — Trie insertion is monotone and establishing: if a trie contains
`s1` (terminal marker at the end of `s1`'s path, `Trie.__contains__`),
then after `Trie.add s2` it still contains `s1`, and it contains `s2`. -/
theorem trie_add_monotone_establishing (t : Node) (s1 s2 : List Sym)
    (h : containsSeq t s1 = true) :
    containsSeq (addSeq t s2) s1 = true ∧
      containsSeq (addSeq t s2) s2 = true :=
  ⟨containsSeq_addSeq_mono s2 s1 t h, containsSeq_addSeq_self s2 t⟩

/-- Witness for C9 at a concrete trie: the trie holding "ab" keeps "ab"
and gains "ac" when "ac" is added. -/
theorem trie_add_monotone_establishing_witness :
    containsSeq (addSeq Node.empty [['a'], ['b']]) [['a'], ['b']] = true ∧
      containsSeq (addSeq (addSeq Node.empty [['a'], ['b']]) [['a'], ['c']])
          [['a'], ['b']] = true ∧
      containsSeq (addSeq (addSeq Node.empty [['a'], ['b']]) [['a'], ['c']])
          [['a'], ['c']] = true := by
  refine ⟨by decide, ?_⟩
  have := trie_add_monotone_establishing (addSeq Node.empty [['a'], ['b']])
    [['a'], ['b']] [['a'], ['c']] (by decide)
  exact this

/-!
## `agreement.py`: `EndingTrie` and `StemEndingCounter`

Counters (`collections.Counter`) are association lists from keys to
counts in insertion order; `c[k] += n` updates in place or appends, and
lookups of absent keys yield 0.  `Counter.most_common()` sorts by count
descending, ties in insertion order (a stable sort).  Python floats are
modelled as exact rationals (see the header).
-/

/-- Generic association-list lookup (Python dict `get`). -/
def alookup {α : Type} (l : List (Sym × α)) (k : Sym) : Option α :=
  match l with
  | [] => none
  | (k', v) :: rest => if k' = k then some v else alookup rest k

/-- `Counter[k] += n`: add to the entry in place, or append it. -/
def counterAdd (c : List (Sym × Nat)) (k : Sym) (n : Nat) :
    List (Sym × Nat) :=
  match c with
  | [] => [(k, n)]
  | (k', m) :: rest =>
    if k' = k then (k', m + n) :: rest else (k', m) :: counterAdd rest k n

/-- `Counter[k]` lookup: 0 for an absent key. -/
def counterGet (c : List (Sym × Nat)) (k : Sym) : Nat :=
  match c with
  | [] => 0
  | (k', m) :: rest => if k' = k then m else counterGet rest k

/-- Stable sort by count descending: `Counter.most_common()` (Python's
sort is stable; `List.insertionSort` with the comes-before-or-tied
relation realizes the same stable order and stays kernel-computable). -/
def mostCommonList (c : List (Sym × Nat)) : List (Sym × Nat) :=
  c.insertionSort (fun a b => b.2 ≤ a.2)

/-- The `EndingTrie` state (`agreement.py` lines 21-28): the inherited
trie root, the per-word occurrence counter `self.words` (over reversed
co-occurring words), and the per-ending counter `self.endings`
(populated by `collapse_endings`). -/
structure ETrie where
  root : Node
  words : List (Sym × Nat)
  endings : List (Sym × Nat)

/-- `EndingTrie.__init__`. -/
def ETrie.empty : ETrie := ⟨Node.empty, [], []⟩

instance : Inhabited ETrie := ⟨ETrie.empty⟩

/-- `EndingTrie.add` of a (reversed-word) string: insert its character
path (`Trie.add` iterates the characters of the string). -/
def ETrie.addEvidence (tr : ETrie) (s : Sym) : ETrie :=
  { tr with root := addSeq tr.root (s.map (fun c => [c])) }

/-- `EndingTrie.add_word` (`agreement.py` lines 42-43). -/
def ETrie.addWord (tr : ETrie) (s : Sym) : ETrie :=
  { tr with words := counterAdd tr.words s 1 }

mutual
/-- `starts_with` from a reached node: one completion per terminal
marker below it (`agreement.py` lines 45-57 and `morphology.py` lines
62-79).  The Python generator re-walks each extended prefix from the
root; with unique dict keys that walk reaches exactly this child, so the
enumeration is structural.  Dict iteration order only permutes the
completions; `num_successors` takes the length, which is
order-independent. -/
def enumFrom : Node → List Sym → List (List Sym)
  | .mk cs b, pfx => (if b then [pfx] else []) ++ enumFromList cs pfx

/-- `enumFrom` over a children list. -/
def enumFromList : List (Sym × Node) → List Sym → List (List Sym)
  | [], _ => []
  | (k, t) :: rest, pfx => enumFrom t (pfx ++ [k]) ++ enumFromList rest pfx
end

/-- `EndingTrie.num_successors` (`agreement.py` lines 60-61): the number
of completions below a path; a `KeyError` on lookup is caught in
`starts_with` and yields zero.  For a single-character ending the Python
passes a string and for a longer one a bracketed list; both walks reach
the same node (characters are the one-symbol keys below the root), so
one definition covers the two branches at lines 108-114. -/
def numSuccessors (t : Node) (path : List Sym) : Nat :=
  match nodeAt t path with
  | none => 0
  | some nd => (enumFrom nd path).length

/-- The merge-acceptance test of `collapse_endings` (`agreement.py` line
119): `num_successors >= old_num_successors * 0.2`.  Over exact
arithmetic, `old * 0.2 ≤ cnt` for naturals is exactly `old ≤ 5 * cnt`
(theorem `pointTwo_iff`); the IEEE double comparison the Python performs
agrees with the exact one for all counts below `2^53`.  The natural-
number form keeps the definition kernel-computable. -/
def mergeAccepted (st : Node) (e n : Sym) : Bool :=
  decide (numSuccessors st [e] ≤ 5 * numSuccessors st [e, n])

/-- The accepted-merge mutation (`agreement.py` lines 122-124):
`self.root[ending + next_ending] = deepcopy(self.root[ending][next_ending])`
followed by `del self.root[ending][next_ending]`; a missing path raises
`KeyError`. -/
def applyMerge (st : Node) (e n : Sym) : Except Unit Node :=
  match nodeAt st [e, n] with
  | none => .error ()
  | some sub =>
    let root₁ := setChild st.children (e ++ n) sub
    match lookupChild root₁ e with
    | none => .error ()
    | some eNode =>
      .ok (.mk (setChild root₁ e (.mk (delChild eNode.children n)
        eNode.term)) st.term)

/-- One body of the inner loop of the merge scan (`agreement.py` lines
100-126): falsy keys are skipped (`if next_ending:`), otherwise the
acceptance test runs against the current trie and an accepted merge
mutates it and sets `keep_going`. -/
def tryMergeStep (st : Node) (e n : Sym) : Except Unit (Node × Bool) :=
  if n = [] then .ok (st, false)
  else if mergeAccepted st e n then
    (applyMerge st e n).map (fun st' => (st', true))
  else .ok (st, false)

/-- The inner `for next_ending in root_copy[ending]` loop over the
snapshot keys, threading the mutating trie. -/
def innerScan (e : Sym) (ns : List Sym) (st : Node) (ch : Bool) :
    Except Unit (Node × Bool) :=
  match ns with
  | [] => .ok (st, ch)
  | n :: rest => do
    let (st', ch') ← tryMergeStep st e n
    innerScan e rest st' (ch || ch')

/-- The outer `for ending in root_copy` loop over the snapshot. -/
def outerScan (entries : List (Sym × Node)) (st : Node) (ch : Bool) :
    Except Unit (Node × Bool) :=
  match entries with
  | [] => .ok (st, ch)
  | (e, eNode) :: rest => do
    let (st', ch') ← innerScan e (eNode.children.map Prod.fst) st ch
    outerScan rest st' ch'

/-- One full scan of the `while keep_going` loop: take the deep-copied
snapshot (`root_copy = deepcopy(self.root)`), reset the flag, and walk
every (ending, next-ending) pair of the snapshot. -/
def scanMerges (st : Node) : Except Unit (Node × Bool) :=
  outerScan st.children st false

/-- The `while keep_going` loop, with explicit fuel; `none` means the
fuel ran out.  `mergeLoop_ne_none` shows fuel `depthSum st + 1` always
suffices (and `mergeLoop_ne_none_nonroot` that the node count does
too), so this equals the unbounded Python loop. -/
def mergeLoop (fuel : Nat) (st : Node) : Option (Except Unit Node) :=
  match fuel with
  | 0 => none
  | fuel' + 1 =>
    match scanMerges st with
    | .error e => some (.error e)
    | .ok (st', ch) => if ch then mergeLoop fuel' st' else some (.ok st')

/-- The final assignment loop of `collapse_endings` (`agreement.py`
lines 142-146): for each surviving chunk, longest first, sweep the
remaining word pool, accumulate the counts of the words it prefixes
into the fresh endings counter, and delete those words from the pool.
An ending with no matching word gets no counter entry. -/
def assignEndings (endings : List Sym) (pool : List (Sym × Nat)) :
    List (Sym × Nat) × List (Sym × Nat) :=
  match endings with
  | [] => ([], pool)
  | e :: rest =>
    let matched := pool.filter (fun wc => wc.1.take e.length = e)
    let remaining := pool.filter (fun wc => ¬(wc.1.take e.length = e))
    (if matched.isEmpty then (assignEndings rest remaining).1
     else (e, (matched.map Prod.snd).sum) :: (assignEndings rest remaining).1,
     (assignEndings rest remaining).2)

/-- `sorted(self.root.keys(), key=len, reverse=True)`: a stable sort of
the surviving chunks by length, longest first. -/
def sortByLenDesc (l : List Sym) : List Sym :=
  l.insertionSort (fun a b => b.length ≤ a.length)

/-- The final pruning of `collapse_endings` (`agreement.py` lines
129-134): drop every root chunk whose successor count is below the
average successor count.  `self.num_successors([ending]) < avg` with
`avg = counts.sum / counts.length` is, for a positive length, exactly
`cnt * length < sum`; the comparison is kept in naturals for
computability.  Deleting a root key does not change the successor count
of any other root key, so the iteration over the deep-copied key list is
a filter. -/
def pruneSurvivors (root₁ : Node) : List (Sym × Node) :=
  let counts := root₁.children.map fun kv => numSuccessors root₁ [kv.1]
  root₁.children.filter
    fun kv => decide (counts.sum ≤ numSuccessors root₁ [kv.1] * counts.length)

/-- `EndingTrie.collapse_endings` (`agreement.py` lines 87-148): the
iterative merge loop (fuel justified by `merge_loop_halts`), the
below-average pruning of root chunks (`statistics.mean` raises on an
empty sequence, a state the program never reaches for a trie holding
evidence), and the longest-first assignment of pooled words to
surviving chunks.  Errors collapse the Python exceptions (`KeyError`,
`StatisticsError`) into `Except.error`. -/
def collapseEndings (tr : ETrie) : Except Unit ETrie :=
  match mergeLoop (depthSum tr.root + 1) tr.root with
  | none => .error ()
  | some (.error _) => .error ()
  | some (.ok root₁) =>
    if root₁.children.length = 0 then .error ()
    else
      let survivors := pruneSurvivors root₁
      let sorted := sortByLenDesc (survivors.map Prod.fst)
      .ok { root := Node.mk survivors root₁.term,
            words := (assignEndings sorted tr.words).2,
            endings := (assignEndings sorted tr.words).1 }

/-- The `StemEndingCounter` state (`agreement.py` lines 152-156): one
`EndingTrie` per stem (a `defaultdict`, insertion-ordered), and the
global word counter.  The memoized `filtered_endings` cache is write-only
state the model recomputes on demand (its recompute flag is never used
by the program's callers). -/
structure SEC where
  wordsEndings : List (Sym × ETrie)
  wordCounter : List (Sym × Nat)

/-- `StemEndingCounter.__init__`. -/
def SEC.empty : SEC := ⟨[], []⟩

/-- `defaultdict` update: apply `f` to the stem's trie, creating a fresh
empty trie first when the stem is new (appended in insertion order). -/
def secUpdate (m : List (Sym × ETrie)) (k : Sym) (f : ETrie → ETrie) :
    List (Sym × ETrie) :=
  match m with
  | [] => [(k, f ETrie.empty)]
  | (k', tr) :: rest =>
    if k' = k then (k', f tr) :: rest else (k', tr) :: secUpdate rest k f

/-- `StemEndingCounter.add` (`agreement.py` lines 166-175): symmetric
evidence — each word contributes its reversed spelling to the other's
trie and word counter, and both global counts are incremented. -/
def SEC.add (c : SEC) (w other : Sym) : SEC :=
  let m₁ := secUpdate c.wordsEndings w
    fun tr => (tr.addEvidence other.reverse).addWord other.reverse
  let m₂ := secUpdate m₁ other
    fun tr => (tr.addEvidence w.reverse).addWord w.reverse
  { wordsEndings := m₂,
    wordCounter := counterAdd (counterAdd c.wordCounter w 1) other 1 }

/-- `StemEndingCounter.__getitem__` (`agreement.py` lines 158-161): a
`defaultdict` access — a missing stem is created (an empty `EndingTrie`
stored under it) as a side effect of the lookup. -/
def SEC.getItem (c : SEC) (w : Sym) : ETrie × SEC :=
  match alookup c.wordsEndings w with
  | some tr => (tr, c)
  | none =>
    (ETrie.empty, { c with wordsEndings := c.wordsEndings ++ [(w, ETrie.empty)] })

/-- `StemEndingCounter.stems` (`agreement.py` lines 177-179). -/
def SEC.stems (c : SEC) : List Sym := c.wordsEndings.map Prod.fst

/-- The loop body of `StemEndingCounter.collapse_endings`: collapse each
stored trie left to right, stopping at the first exception. -/
def mapCollapse : List (Sym × ETrie) → Except Unit (List (Sym × ETrie))
  | [] => .ok []
  | kv :: rest => do
    let tr ← collapseEndings kv.2
    let rest' ← mapCollapse rest
    pure ((kv.1, tr) :: rest')

/-- `StemEndingCounter.collapse_endings` (`agreement.py` lines 181-187):
collapse every stem's trie in place. -/
def SEC.collapseAll (c : SEC) : Except Unit SEC := do
  let we ← mapCollapse c.wordsEndings
  pure { c with wordsEndings := we }

/-- `StemEndingCounter.filter_endings` with the default cutoff 150
(`agreement.py` lines 189-202): the most frequent stems by global count,
each paired with its trie. -/
def SEC.filterEndings (c : SEC) : List (Sym × ETrie) :=
  ((mostCommonList c.wordCounter).take 150).map
    fun kv => (kv.1, (alookup c.wordsEndings kv.1).getD ETrie.empty)

/-- One row of `optimize_words` output: the stem, its top-3 endings
restored to forward spelling with counts, and the `top_vs_all` float
carried as the integer pair it is computed from (`top` over `total`,
the global co-occurrence total); `OptEntry.topVsAll` is its exact
value.  (Rationals are kept out of the structure so rows stay
kernel-computable.) -/
structure OptEntry where
  word : Sym
  tops : List (Sym × Nat)
  top : Nat
  total : Nat
deriving DecidableEq, Repr

/-- The `top_vs_all` value of a row: `top_occurrence / total_occurrences`
(`agreement.py` line 214), exactly. -/
def OptEntry.topVsAll (e : OptEntry) : ℚ := (e.top : ℚ) / (e.total : ℚ)

/-- `StemEndingCounter.optimize_words` (`agreement.py` lines 205-223):
for each filtered stem, `top_vs_all = top_occurrence / total_occurrences`
where `top_occurrence` is the count of the most common collapsed ending
(an `IndexError` — here `.error` — if the stem has no endings) and
`total_occurrences` is the stem's global co-occurrence count (a
`ZeroDivisionError` — also `.error` — if zero). -/
def optRows (wc : List (Sym × Nat)) :
    List (Sym × ETrie) → Except Unit (List OptEntry)
  | [] => .ok []
  | kv :: rest => do
    let total := counterGet wc kv.1
    let row ← match mostCommonList kv.2.endings with
      | [] => .error ()
      | top :: _ =>
        if total = 0 then .error ()
        else
          .ok { word := kv.1,
                tops := ((mostCommonList kv.2.endings).take 3).map
                  fun e => (e.1.reverse, e.2),
                top := top.2,
                total := total }
    let rest' ← optRows wc rest
    pure (row :: rest')

def SEC.optimizeWords (c : SEC) : Except Unit (List OptEntry) :=
  optRows c.wordCounter c.filterEndings

/-- `StemEndingCounter.most_common` (`agreement.py` lines 227-232):
`optimize_words` sorted by `top_vs_all` descending.  For positive
totals, `b.topVsAll ≤ a.topVsAll` is exactly the cross-multiplied
natural comparison used here (`topVsAll_le_iff`), which keeps the sort
kernel-computable. -/
def SEC.mostCommon (c : SEC) : Except Unit (List OptEntry) := do
  let ow ← c.optimizeWords
  pure (ow.insertionSort fun a b => b.top * a.total ≤ a.top * b.total)

/-- The unordered word pairs of one context window
(`itertools.combinations(line, 2)` in `group_data`). -/
def pairsOf (line : List Sym) : List (Sym × Sym) :=
  match line with
  | [] => []
  | x :: rest => rest.map (fun y => (x, y)) ++ pairsOf rest

/-- `group_data` (`agreement.py` lines 305-312): feed every pair of every
window into a fresh counter. -/
def groupData (lines : List (List Sym)) : SEC :=
  lines.foldl (fun c line => (pairsOf line).foldl
    (fun c p => c.add p.1 p.2) c) SEC.empty

/-- A counter fed a plain list of `add` calls (the elementary evidence
stream `group_data` produces). -/
def applyAdds (pairs : List (Sym × Sym)) : SEC :=
  pairs.foldl (fun c p => c.add p.1 p.2) SEC.empty

/-!
## C3 — characterizing one merge step
-/

theorem lookupChild_setChild {cs : List (Sym × Node)} (k : Sym) (v : Node) :
    lookupChild (setChild cs k v) k = some v := by
  induction cs with
  | nil => simp [setChild, lookupChild]
  | cons hd tl ih =>
    obtain ⟨k', t⟩ := hd
    by_cases hk : k' = k
    · simp [setChild, lookupChild, hk]
    · simp [setChild, lookupChild, if_neg hk, ih]

theorem lookupChild_delChild_self {cs : List (Sym × Node)} {n : Sym}
    (hnd : (cs.map Prod.fst).Nodup) :
    lookupChild (delChild cs n) n = none := by
  induction cs with
  | nil => simp [delChild, lookupChild]
  | cons hd tl ih =>
    obtain ⟨k', t⟩ := hd
    simp only [List.map_cons, List.nodup_cons] at hnd
    by_cases hk : k' = n
    · subst hk
      rw [show delChild ((k', t) :: tl) k' =
          if k' = k' then tl else (k', t) :: delChild tl k' from rfl,
        if_pos rfl]
      rw [lookupChild_eq_none_iff]
      exact hnd.1
    · rw [show delChild ((k', t) :: tl) n =
          if k' = n then tl else (k', t) :: delChild tl n from rfl,
        if_neg hk]
      simp only [lookupChild, if_neg hk]
      exact ih hnd.2

mutual
theorem enumFrom_length : ∀ (t : Node) (pfx : List Sym),
    (enumFrom t pfx).length = numMarkers t
  | .mk cs b, pfx => by
    rw [show enumFrom (Node.mk cs b) pfx =
        (if b then [pfx] else []) ++ enumFromList cs pfx from by
          rw [enumFrom], numMarkers]
    rw [List.length_append, enumFromList_length cs pfx]
    cases b <;> simp

theorem enumFromList_length : ∀ (cs : List (Sym × Node)) (pfx : List Sym),
    (enumFromList cs pfx).length = numMarkersList cs
  | [], pfx => by rw [enumFromList, numMarkersList]; rfl
  | (k, t) :: rest, pfx => by
    rw [show enumFromList ((k, t) :: rest) pfx =
        enumFrom t (pfx ++ [k]) ++ enumFromList rest pfx from by
          rw [enumFromList], numMarkersList]
    rw [List.length_append, enumFrom_length t (pfx ++ [k]),
      enumFromList_length rest pfx]
end

/-- `num_successors` along a present path counts the terminal markers of
the reached subtree. -/
theorem numSuccessors_eq {st : Node} {path : List Sym} {nd : Node}
    (h : nodeAt st path = some nd) :
    numSuccessors st path = numMarkers nd := by
  rw [numSuccessors, h]
  exact enumFrom_length nd path

theorem pointTwo_iff (a b : Nat) :
    ((a : ℚ) * 0.2 ≤ (b : ℚ)) ↔ a ≤ 5 * b := by
  rw [show (0.2 : ℚ) = 1 / 5 from by norm_num]
  constructor
  · intro h
    have h5 : (a : ℚ) ≤ 5 * (b : ℚ) := by linarith
    exact_mod_cast h5
  · intro h
    have h5 : (a : ℚ) ≤ 5 * (b : ℚ) := by exact_mod_cast h
    linarith

theorem append_ne_self {e n : Sym} (hn : n ≠ []) : e ++ n ≠ e := by
  intro h
  have := congrArg List.length h
  simp only [List.length_append] at this
  exact hn (List.length_eq_zero.mp (by omega))

/-- C3 — One candidate merge of `collapse_endings`: with the candidate
path `chunk → next_chunk` present, the merge is accepted exactly when the
successor count of the merged form (the completions below
`root[chunk][next_chunk]`) is at least 0.2 times the un-merged chunk's
successor count, and the accepted merge re-parents that subtree at the
root under `chunk + next_chunk` while deleting the two-level path; a
rejected candidate leaves the trie unchanged. -/
theorem merge_step_characterization (st : Node) (e n : Sym) (E sub : Node)
    (hn : n ≠ [])
    (hE : lookupChild st.children e = some E)
    (hsub : lookupChild E.children n = some sub)
    (hndE : (E.children.map Prod.fst).Nodup) :
    ∃ st', applyMerge st e n = .ok st' ∧
      (tryMergeStep st e n = .ok (st', true) ↔
        (numMarkers E : ℚ) * 0.2 ≤ (numMarkers sub : ℚ)) ∧
      (¬((numMarkers E : ℚ) * 0.2 ≤ (numMarkers sub : ℚ)) →
        tryMergeStep st e n = .ok (st, false)) ∧
      nodeAt st' [e ++ n] = some sub ∧ nodeAt st' [e, n] = none := by
  have hpathE : nodeAt st [e] = some E := by
    simp [nodeAt, hE]
  have hpath : nodeAt st [e, n] = some sub := by
    simp [nodeAt, hE, hsub]
  have hEsucc : numSuccessors st [e] = numMarkers E := numSuccessors_eq hpathE
  have hSsucc : numSuccessors st [e, n] = numMarkers sub :=
    numSuccessors_eq hpath
  have hne : e ++ n ≠ e := append_ne_self hn
  have hlook₁ : lookupChild (setChild st.children (e ++ n) sub) e = some E := by
    rw [lookupChild_setChild_ne _ (Ne.symm hne)]
    exact hE
  have happly : applyMerge st e n =
      .ok (.mk (setChild (setChild st.children (e ++ n) sub) e
        (.mk (delChild E.children n) E.term)) st.term) := by
    simp only [applyMerge, hpath, hlook₁]
  refine ⟨_, happly, ?_, ?_, ?_, ?_⟩
  · constructor
    · intro htm
      rw [tryMergeStep, if_neg hn] at htm
      by_cases hacc : mergeAccepted st e n
      · rw [mergeAccepted, hEsucc, hSsucc] at hacc
        exact (pointTwo_iff _ _).mpr (of_decide_eq_true hacc)
      · rw [if_neg (by simpa using hacc)] at htm
        simp at htm
    · intro hge
      rw [tryMergeStep, if_neg hn, if_pos
        (by rw [mergeAccepted, hEsucc, hSsucc]
            exact decide_eq_true ((pointTwo_iff _ _).mp hge)),
        happly]
      rfl
  · intro hlt
    rw [tryMergeStep, if_neg hn, if_neg
      (by rw [mergeAccepted, hEsucc, hSsucc]
          simp only [decide_eq_true_eq]
          exact fun hc => hlt ((pointTwo_iff _ _).mpr hc))]
  · simp only [nodeAt, Node.children, lookupChild_setChild_ne _ hne,
      lookupChild_setChild]
  · obtain ⟨Ecs, Eb⟩ := E
    have hdel : lookupChild (delChild Ecs n) n = none :=
      lookupChild_delChild_self hndE
    simp only [nodeAt, Node.children, lookupChild_setChild, hdel]

/-- Witness for C3 on the concrete trie holding the single path
`a → b`: the merge of `('a', 'b')` is accepted (1 successor versus
0.2 × 1) and re-parents the terminal node under the root key "ab". -/
theorem merge_step_characterization_witness :
    ∃ st', applyMerge (addSeq Node.empty [['a'], ['b']]) ['a'] ['b'] =
        .ok st' ∧
      (tryMergeStep (addSeq Node.empty [['a'], ['b']]) ['a'] ['b'] =
          .ok (st', true) ↔
        (numMarkers (Node.mk [(['b'], Node.mk [] true)] false) : ℚ) * 0.2 ≤
          (numMarkers (Node.mk [] true) : ℚ)) ∧
      (¬((numMarkers (Node.mk [(['b'], Node.mk [] true)] false) : ℚ) * 0.2 ≤
          (numMarkers (Node.mk [] true) : ℚ)) →
        tryMergeStep (addSeq Node.empty [['a'], ['b']]) ['a'] ['b'] =
          .ok (addSeq Node.empty [['a'], ['b']], false)) ∧
      nodeAt st' [['a'] ++ ['b']] = some (Node.mk [] true) ∧
      nodeAt st' [['a'], ['b']] = none :=
  merge_step_characterization (addSeq Node.empty [['a'], ['b']])
    ['a'] ['b'] (Node.mk [(['b'], Node.mk [] true)] false) (Node.mk [] true)
    (by decide) (by rfl) (by rfl) (by decide)

/-!
## C2 — termination of the merge loop

Every executed merge strictly decreases two measures, with no
well-formedness needed: `depthSum` (the sum of every entry's depth —
the moving subtree sits one level higher, and a key collision only
discards more weight), which justifies the fuel used in the
`mergeLoop` embedding, and `nonRootEntries` (the number of entries
below depth 1 — the merge deletes one depth-2 entry and re-adds its
subtree under a root key, a net loss of exactly one non-root entry,
or more on a key collision).  The second measure is at most the entry
count, so the loop completes within node-count many scans.
-/

/-- The total entry count of each node of a children list (the number
of entries strictly below the listed ones, plus none for the list
itself). -/
def nreList : List (Sym × Node) → Nat
  | [] => 0
  | (_, t) :: rest => numEntries t + nreList rest

/-- The number of non-root entries of a trie: every entry except the
root-level ones. -/
def nonRootEntries (st : Node) : Nat := nreList st.children

theorem nreList_setChild_some {cs : List (Sym × Node)} {k : Sym}
    {v w : Node} (h : lookupChild cs k = some w) :
    nreList (setChild cs k v) + numEntries w =
      nreList cs + numEntries v := by
  induction cs with
  | nil => simp [lookupChild] at h
  | cons hd tl ih =>
    obtain ⟨k', t⟩ := hd
    by_cases hk : k' = k
    · rw [show lookupChild ((k', t) :: tl) k =
          if k' = k then some t else lookupChild tl k from rfl,
        if_pos hk] at h
      obtain rfl := Option.some.injEq .. ▸ h
      rw [show setChild ((k', t) :: tl) k v =
          if k' = k then (k, v) :: tl else (k', t) :: setChild tl k v
          from rfl, if_pos hk]
      rw [nreList, nreList]
      omega
    · rw [show lookupChild ((k', t) :: tl) k =
          if k' = k then some t else lookupChild tl k from rfl,
        if_neg hk] at h
      rw [show setChild ((k', t) :: tl) k v =
          if k' = k then (k, v) :: tl else (k', t) :: setChild tl k v
          from rfl, if_neg hk]
      rw [nreList, nreList]
      have := ih h
      omega

theorem nreList_setChild_none {cs : List (Sym × Node)} {k : Sym}
    {v : Node} (h : lookupChild cs k = none) :
    nreList (setChild cs k v) = nreList cs + numEntries v := by
  induction cs with
  | nil =>
    rw [show setChild ([] : List (Sym × Node)) k v = [(k, v)] from rfl]
    rw [nreList, nreList, nreList]
    omega
  | cons hd tl ih =>
    obtain ⟨k', t⟩ := hd
    by_cases hk : k' = k
    · rw [show lookupChild ((k', t) :: tl) k =
          if k' = k then some t else lookupChild tl k from rfl,
        if_pos hk] at h
      simp at h
    · rw [show lookupChild ((k', t) :: tl) k =
          if k' = k then some t else lookupChild tl k from rfl,
        if_neg hk] at h
      rw [show setChild ((k', t) :: tl) k v =
          if k' = k then (k, v) :: tl else (k', t) :: setChild tl k v
          from rfl, if_neg hk]
      rw [nreList, nreList]
      have := ih h
      omega

theorem nreList_le_numEntriesList (cs : List (Sym × Node)) :
    nreList cs ≤ numEntriesList cs := by
  induction cs with
  | nil => rw [nreList, numEntriesList]
  | cons hd tl ih =>
    obtain ⟨k, t⟩ := hd
    rw [nreList, numEntriesList]
    omega

theorem numEntriesList_setChild_some {cs : List (Sym × Node)} {k : Sym}
    {v w : Node} (h : lookupChild cs k = some w) :
    numEntriesList (setChild cs k v) + numEntries w =
      numEntriesList cs + numEntries v := by
  induction cs with
  | nil => simp [lookupChild] at h
  | cons hd tl ih =>
    obtain ⟨k', t⟩ := hd
    by_cases hk : k' = k
    · rw [show lookupChild ((k', t) :: tl) k =
          if k' = k then some t else lookupChild tl k from rfl,
        if_pos hk] at h
      obtain rfl := Option.some.injEq .. ▸ h
      rw [show setChild ((k', t) :: tl) k v =
          if k' = k then (k, v) :: tl else (k', t) :: setChild tl k v
          from rfl, if_pos hk]
      rw [numEntriesList, numEntriesList]
      omega
    · rw [show lookupChild ((k', t) :: tl) k =
          if k' = k then some t else lookupChild tl k from rfl,
        if_neg hk] at h
      rw [show setChild ((k', t) :: tl) k v =
          if k' = k then (k, v) :: tl else (k', t) :: setChild tl k v
          from rfl, if_neg hk]
      rw [numEntriesList, numEntriesList]
      have := ih h
      omega

theorem numEntriesList_setChild_none {cs : List (Sym × Node)} {k : Sym}
    {v : Node} (h : lookupChild cs k = none) :
    numEntriesList (setChild cs k v) = numEntriesList cs + 1 + numEntries v := by
  induction cs with
  | nil =>
    rw [show setChild ([] : List (Sym × Node)) k v = [(k, v)] from rfl]
    rw [numEntriesList, numEntriesList, numEntriesList]
    omega
  | cons hd tl ih =>
    obtain ⟨k', t⟩ := hd
    by_cases hk : k' = k
    · rw [show lookupChild ((k', t) :: tl) k =
          if k' = k then some t else lookupChild tl k from rfl,
        if_pos hk] at h
      simp at h
    · rw [show lookupChild ((k', t) :: tl) k =
          if k' = k then some t else lookupChild tl k from rfl,
        if_neg hk] at h
      rw [show setChild ((k', t) :: tl) k v =
          if k' = k then (k, v) :: tl else (k', t) :: setChild tl k v
          from rfl, if_neg hk]
      rw [numEntriesList, numEntriesList]
      have := ih h
      omega

theorem depthSumList_setChild_some {cs : List (Sym × Node)} {k : Sym}
    {v w : Node} (h : lookupChild cs k = some w) :
    depthSumList (setChild cs k v) + numEntries w + depthSum w =
      depthSumList cs + numEntries v + depthSum v := by
  induction cs with
  | nil => simp [lookupChild] at h
  | cons hd tl ih =>
    obtain ⟨k', t⟩ := hd
    by_cases hk : k' = k
    · rw [show lookupChild ((k', t) :: tl) k =
          if k' = k then some t else lookupChild tl k from rfl,
        if_pos hk] at h
      obtain rfl := Option.some.injEq .. ▸ h
      rw [show setChild ((k', t) :: tl) k v =
          if k' = k then (k, v) :: tl else (k', t) :: setChild tl k v
          from rfl, if_pos hk]
      rw [depthSumList, depthSumList]
      omega
    · rw [show lookupChild ((k', t) :: tl) k =
          if k' = k then some t else lookupChild tl k from rfl,
        if_neg hk] at h
      rw [show setChild ((k', t) :: tl) k v =
          if k' = k then (k, v) :: tl else (k', t) :: setChild tl k v
          from rfl, if_neg hk]
      rw [depthSumList, depthSumList]
      have := ih h
      omega

theorem depthSumList_setChild_none {cs : List (Sym × Node)} {k : Sym}
    {v : Node} (h : lookupChild cs k = none) :
    depthSumList (setChild cs k v) =
      depthSumList cs + 1 + numEntries v + depthSum v := by
  induction cs with
  | nil =>
    rw [show setChild ([] : List (Sym × Node)) k v = [(k, v)] from rfl]
    rw [depthSumList, depthSumList, depthSumList]
    omega
  | cons hd tl ih =>
    obtain ⟨k', t⟩ := hd
    by_cases hk : k' = k
    · rw [show lookupChild ((k', t) :: tl) k =
          if k' = k then some t else lookupChild tl k from rfl,
        if_pos hk] at h
      simp at h
    · rw [show lookupChild ((k', t) :: tl) k =
          if k' = k then some t else lookupChild tl k from rfl,
        if_neg hk] at h
      rw [show setChild ((k', t) :: tl) k v =
          if k' = k then (k, v) :: tl else (k', t) :: setChild tl k v
          from rfl, if_neg hk]
      rw [depthSumList, depthSumList]
      have := ih h
      omega

theorem numEntriesList_delChild {cs : List (Sym × Node)} {n : Sym}
    {w : Node} (h : lookupChild cs n = some w) :
    numEntriesList (delChild cs n) + 1 + numEntries w = numEntriesList cs := by
  induction cs with
  | nil => simp [lookupChild] at h
  | cons hd tl ih =>
    obtain ⟨k', t⟩ := hd
    by_cases hk : k' = n
    · rw [show lookupChild ((k', t) :: tl) n =
          if k' = n then some t else lookupChild tl n from rfl,
        if_pos hk] at h
      obtain rfl := Option.some.injEq .. ▸ h
      rw [show delChild ((k', t) :: tl) n =
          if k' = n then tl else (k', t) :: delChild tl n from rfl,
        if_pos hk]
      rw [numEntriesList]
      omega
    · rw [show lookupChild ((k', t) :: tl) n =
          if k' = n then some t else lookupChild tl n from rfl,
        if_neg hk] at h
      rw [show delChild ((k', t) :: tl) n =
          if k' = n then tl else (k', t) :: delChild tl n from rfl,
        if_neg hk]
      rw [numEntriesList, numEntriesList]
      have := ih h
      omega

theorem depthSumList_delChild {cs : List (Sym × Node)} {n : Sym}
    {w : Node} (h : lookupChild cs n = some w) :
    depthSumList (delChild cs n) + 1 + numEntries w + depthSum w =
      depthSumList cs := by
  induction cs with
  | nil => simp [lookupChild] at h
  | cons hd tl ih =>
    obtain ⟨k', t⟩ := hd
    by_cases hk : k' = n
    · rw [show lookupChild ((k', t) :: tl) n =
          if k' = n then some t else lookupChild tl n from rfl,
        if_pos hk] at h
      obtain rfl := Option.some.injEq .. ▸ h
      rw [show delChild ((k', t) :: tl) n =
          if k' = n then tl else (k', t) :: delChild tl n from rfl,
        if_pos hk]
      rw [depthSumList]
      omega
    · rw [show lookupChild ((k', t) :: tl) n =
          if k' = n then some t else lookupChild tl n from rfl,
        if_neg hk] at h
      rw [show delChild ((k', t) :: tl) n =
          if k' = n then tl else (k', t) :: delChild tl n from rfl,
        if_neg hk]
      rw [depthSumList, depthSumList]
      have := ih h
      omega

theorem applyMerge_decreases {st st' : Node} {e n : Sym} (hn : n ≠ [])
    (h : applyMerge st e n = .ok st') : depthSum st' < depthSum st := by
  obtain ⟨cs, b⟩ := st
  cases hE : lookupChild cs e with
  | none =>
    rw [applyMerge] at h
    rw [show nodeAt (Node.mk cs b) [e, n] = none from by
      simp [nodeAt, Node.children, hE]] at h
    simp at h
  | some E =>
    obtain ⟨Ecs, Eb⟩ := E
    cases hs : lookupChild Ecs n with
    | none =>
      rw [applyMerge] at h
      rw [show nodeAt (Node.mk cs b) [e, n] = none from by
        simp [nodeAt, Node.children, hE, hs]] at h
      simp at h
    | some sub =>
      have hpath : nodeAt (Node.mk cs b) [e, n] = some sub := by
        simp [nodeAt, Node.children, hE, hs]
      have hne : e ++ n ≠ e := append_ne_self hn
      have hlook₁ : lookupChild (setChild cs (e ++ n) sub) e =
          some (Node.mk Ecs Eb) := by
        rw [lookupChild_setChild_ne _ (Ne.symm hne)]
        exact hE
      rw [applyMerge, hpath] at h
      simp only [Node.children, hlook₁] at h
      obtain rfl := Except.ok.injEq .. ▸ h
      simp only [Node.term]
      -- arithmetic
      have hdel₁ := numEntriesList_delChild hs
      have hdel₂ := depthSumList_delChild hs
      have hset₂ := depthSumList_setChild_some
        (v := Node.mk (delChild Ecs n) Eb) hlook₁
      rw [show depthSum (Node.mk cs b) = depthSumList cs from by
        rw [depthSum]]
      rw [show depthSum (Node.mk (setChild (setChild cs (e ++ n) sub) e
          (Node.mk (delChild Ecs n) Eb)) b) =
        depthSumList (setChild (setChild cs (e ++ n) sub) e
          (Node.mk (delChild Ecs n) Eb)) from by rw [depthSum]]
      rw [show numEntries (Node.mk (delChild Ecs n) Eb) =
        numEntriesList (delChild Ecs n) from by rw [numEntries]] at hset₂
      rw [show depthSum (Node.mk (delChild Ecs n) Eb) =
        depthSumList (delChild Ecs n) from by rw [depthSum]] at hset₂
      rw [show numEntries (Node.mk Ecs Eb) = numEntriesList Ecs from by
        rw [numEntries]] at hset₂
      rw [show depthSum (Node.mk Ecs Eb) = depthSumList Ecs from by
        rw [depthSum]] at hset₂
      cases hcol : lookupChild cs (e ++ n) with
      | none =>
        have hset₁ := depthSumList_setChild_none (v := sub) hcol
        omega
      | some old =>
        have hset₁ := depthSumList_setChild_some (v := sub) hcol
        omega

theorem tryMergeStep_true {st st' : Node} {e n : Sym}
    (h : tryMergeStep st e n = .ok (st', true)) :
    depthSum st' < depthSum st := by
  rw [tryMergeStep] at h
  by_cases hn : n = []
  · rw [if_pos hn] at h
    simp at h
  · rw [if_neg hn] at h
    by_cases hacc : mergeAccepted st e n
    · rw [if_pos hacc] at h
      cases ha : applyMerge st e n with
      | error err => rw [ha] at h; simp [Except.map] at h
      | ok s =>
        rw [ha] at h
        simp only [Except.map, Except.ok.injEq, Prod.mk.injEq] at h
        obtain ⟨rfl, -⟩ := h
        exact applyMerge_decreases hn ha
    · rw [if_neg hacc] at h
      simp at h

theorem tryMergeStep_false {st st' : Node} {e n : Sym}
    (h : tryMergeStep st e n = .ok (st', false)) : st' = st := by
  rw [tryMergeStep] at h
  by_cases hn : n = []
  · rw [if_pos hn] at h
    simp at h
    exact h.symm
  · rw [if_neg hn] at h
    by_cases hacc : mergeAccepted st e n
    · rw [if_pos hacc] at h
      cases ha : applyMerge st e n with
      | error err => rw [ha] at h; simp [Except.map] at h
      | ok s => rw [ha] at h; simp [Except.map] at h
    · rw [if_neg hacc] at h
      simp at h
      exact h.symm

theorem innerScan_spec :
    ∀ (ns : List Sym) (e : Sym) (st : Node) (ch : Bool) (st' : Node)
      (ch' : Bool), innerScan e ns st ch = .ok (st', ch') →
      (st' = st ∧ ch' = ch) ∨ (depthSum st' < depthSum st ∧ ch' = true) := by
  intro ns
  induction ns with
  | nil =>
    intro e st ch st' ch' h
    rw [innerScan] at h
    simp at h
    exact Or.inl ⟨h.1.symm, h.2.symm⟩
  | cons n rest ih =>
    intro e st ch st' ch' h
    rw [innerScan] at h
    cases ht : tryMergeStep st e n with
    | error err => rw [ht] at h; simp [bind, Except.bind] at h
    | ok p =>
      obtain ⟨st₁, c₁⟩ := p
      rw [ht] at h
      simp only [bind, Except.bind] at h
      cases c₁ with
      | false =>
        obtain rfl := tryMergeStep_false ht
        simpa using ih e st₁ ch st' ch' (by simpa using h)
      | true =>
        have hlt : depthSum st₁ < depthSum st := tryMergeStep_true ht
        have h' : innerScan e rest st₁ true = .ok (st', ch') := by
          simpa using h
        rcases ih e st₁ true st' ch' h' with ⟨rfl, rfl⟩ | ⟨hlt', rfl⟩
        · exact Or.inr ⟨hlt, rfl⟩
        · exact Or.inr ⟨lt_trans hlt' hlt, rfl⟩

theorem outerScan_spec :
    ∀ (entries : List (Sym × Node)) (st : Node) (ch : Bool) (st' : Node)
      (ch' : Bool), outerScan entries st ch = .ok (st', ch') →
      (st' = st ∧ ch' = ch) ∨ (depthSum st' < depthSum st ∧ ch' = true) := by
  intro entries
  induction entries with
  | nil =>
    intro st ch st' ch' h
    rw [outerScan] at h
    simp at h
    exact Or.inl ⟨h.1.symm, h.2.symm⟩
  | cons hd rest ih =>
    intro st ch st' ch' h
    obtain ⟨e, eNode⟩ := hd
    rw [outerScan] at h
    cases hi : innerScan e (eNode.children.map Prod.fst) st ch with
    | error err => rw [hi] at h; simp [bind, Except.bind] at h
    | ok p =>
      obtain ⟨st₁, c₁⟩ := p
      rw [hi] at h
      simp only [bind, Except.bind] at h
      rcases innerScan_spec _ e st ch st₁ c₁ hi with ⟨rfl, rfl⟩ | ⟨hlt, rfl⟩
      · exact ih _ _ st' ch' h
      · rcases ih _ _ st' ch' h with ⟨rfl, rfl⟩ | ⟨hlt', rfl⟩
        · exact Or.inr ⟨hlt, rfl⟩
        · exact Or.inr ⟨lt_trans hlt' hlt, rfl⟩

theorem scanMerges_true {st st' : Node}
    (h : scanMerges st = .ok (st', true)) : depthSum st' < depthSum st := by
  rcases outerScan_spec st.children st false st' true h with ⟨-, h2⟩ | ⟨h1, -⟩
  · simp at h2
  · exact h1

theorem scanMerges_false {st st' : Node}
    (h : scanMerges st = .ok (st', false)) : st' = st := by
  rcases outerScan_spec st.children st false st' false h with ⟨h1, -⟩ | ⟨-, h2⟩
  · exact h1
  · simp at h2

theorem mergeLoop_ne_none :
    ∀ (fuel : Nat) (st : Node), depthSum st < fuel →
      mergeLoop fuel st ≠ none := by
  intro fuel
  induction fuel with
  | zero => intro st h; omega
  | succ fuel' ih =>
    intro st h
    rw [mergeLoop]
    cases hs : scanMerges st with
    | error err => simp
    | ok p =>
      obtain ⟨st₁, ch⟩ := p
      cases ch with
      | false => simp
      | true =>
        have hlt : depthSum st₁ < depthSum st := scanMerges_true hs
        simpa using ih st₁ (by omega)

theorem applyMerge_nonroot {st st' : Node} {e n : Sym} (hn : n ≠ [])
    (h : applyMerge st e n = .ok st') :
    nonRootEntries st' < nonRootEntries st := by
  obtain ⟨cs, b⟩ := st
  cases hE : lookupChild cs e with
  | none =>
    rw [applyMerge] at h
    rw [show nodeAt (Node.mk cs b) [e, n] = none from by
      simp [nodeAt, Node.children, hE]] at h
    simp at h
  | some E =>
    obtain ⟨Ecs, Eb⟩ := E
    cases hs : lookupChild Ecs n with
    | none =>
      rw [applyMerge] at h
      rw [show nodeAt (Node.mk cs b) [e, n] = none from by
        simp [nodeAt, Node.children, hE, hs]] at h
      simp at h
    | some sub =>
      have hpath : nodeAt (Node.mk cs b) [e, n] = some sub := by
        simp [nodeAt, Node.children, hE, hs]
      have hne : e ++ n ≠ e := append_ne_self hn
      have hlook₁ : lookupChild (setChild cs (e ++ n) sub) e =
          some (Node.mk Ecs Eb) := by
        rw [lookupChild_setChild_ne _ (Ne.symm hne)]
        exact hE
      rw [applyMerge, hpath] at h
      simp only [Node.children, hlook₁] at h
      obtain rfl := Except.ok.injEq .. ▸ h
      simp only [Node.term]
      have hdel₁ := numEntriesList_delChild hs
      have hset₂ := nreList_setChild_some
        (v := Node.mk (delChild Ecs n) Eb) hlook₁
      rw [show nonRootEntries (Node.mk cs b) = nreList cs from rfl]
      rw [show nonRootEntries (Node.mk (setChild (setChild cs (e ++ n) sub)
          e (Node.mk (delChild Ecs n) Eb)) b) =
        nreList (setChild (setChild cs (e ++ n) sub) e
          (Node.mk (delChild Ecs n) Eb)) from rfl]
      rw [show numEntries (Node.mk (delChild Ecs n) Eb) =
        numEntriesList (delChild Ecs n) from by rw [numEntries]] at hset₂
      rw [show numEntries (Node.mk Ecs Eb) = numEntriesList Ecs from by
        rw [numEntries]] at hset₂
      cases hcol : lookupChild cs (e ++ n) with
      | none =>
        have hset₁ := nreList_setChild_none (v := sub) hcol
        omega
      | some old =>
        have hset₁ := nreList_setChild_some (v := sub) hcol
        omega

theorem tryMergeStep_true_nonroot {st st' : Node} {e n : Sym}
    (h : tryMergeStep st e n = .ok (st', true)) :
    nonRootEntries st' < nonRootEntries st := by
  rw [tryMergeStep] at h
  by_cases hn : n = []
  · rw [if_pos hn] at h
    simp at h
  · rw [if_neg hn] at h
    by_cases hacc : mergeAccepted st e n
    · rw [if_pos hacc] at h
      cases ha : applyMerge st e n with
      | error err => rw [ha] at h; simp [Except.map] at h
      | ok s =>
        rw [ha] at h
        simp only [Except.map, Except.ok.injEq, Prod.mk.injEq] at h
        obtain ⟨rfl, -⟩ := h
        exact applyMerge_nonroot hn ha
    · rw [if_neg hacc] at h
      simp at h

theorem innerScan_nonroot :
    ∀ (ns : List Sym) (e : Sym) (st : Node) (ch : Bool) (st' : Node)
      (ch' : Bool), innerScan e ns st ch = .ok (st', ch') →
      (st' = st ∧ ch' = ch) ∨
        (nonRootEntries st' < nonRootEntries st ∧ ch' = true) := by
  intro ns
  induction ns with
  | nil =>
    intro e st ch st' ch' h
    rw [innerScan] at h
    simp at h
    exact Or.inl ⟨h.1.symm, h.2.symm⟩
  | cons n rest ih =>
    intro e st ch st' ch' h
    rw [innerScan] at h
    cases ht : tryMergeStep st e n with
    | error err => rw [ht] at h; simp [bind, Except.bind] at h
    | ok p =>
      obtain ⟨st₁, c₁⟩ := p
      rw [ht] at h
      simp only [bind, Except.bind] at h
      cases c₁ with
      | false =>
        obtain rfl := tryMergeStep_false ht
        simpa using ih e st₁ ch st' ch' (by simpa using h)
      | true =>
        have hlt : nonRootEntries st₁ < nonRootEntries st :=
          tryMergeStep_true_nonroot ht
        have h' : innerScan e rest st₁ true = .ok (st', ch') := by
          simpa using h
        rcases ih e st₁ true st' ch' h' with ⟨rfl, rfl⟩ | ⟨hlt', rfl⟩
        · exact Or.inr ⟨hlt, rfl⟩
        · exact Or.inr ⟨lt_trans hlt' hlt, rfl⟩

theorem outerScan_nonroot :
    ∀ (entries : List (Sym × Node)) (st : Node) (ch : Bool) (st' : Node)
      (ch' : Bool), outerScan entries st ch = .ok (st', ch') →
      (st' = st ∧ ch' = ch) ∨
        (nonRootEntries st' < nonRootEntries st ∧ ch' = true) := by
  intro entries
  induction entries with
  | nil =>
    intro st ch st' ch' h
    rw [outerScan] at h
    simp at h
    exact Or.inl ⟨h.1.symm, h.2.symm⟩
  | cons hd rest ih =>
    intro st ch st' ch' h
    obtain ⟨e, eNode⟩ := hd
    rw [outerScan] at h
    cases hi : innerScan e (eNode.children.map Prod.fst) st ch with
    | error err => rw [hi] at h; simp [bind, Except.bind] at h
    | ok p =>
      obtain ⟨st₁, c₁⟩ := p
      rw [hi] at h
      simp only [bind, Except.bind] at h
      rcases innerScan_nonroot _ e st ch st₁ c₁ hi with
        ⟨rfl, rfl⟩ | ⟨hlt, rfl⟩
      · exact ih _ _ st' ch' h
      · rcases ih _ _ st' ch' h with ⟨rfl, rfl⟩ | ⟨hlt', rfl⟩
        · exact Or.inr ⟨hlt, rfl⟩
        · exact Or.inr ⟨lt_trans hlt' hlt, rfl⟩

theorem scanMerges_true_nonroot {st st' : Node}
    (h : scanMerges st = .ok (st', true)) :
    nonRootEntries st' < nonRootEntries st := by
  rcases outerScan_nonroot st.children st false st' true h with
    ⟨-, h2⟩ | ⟨h1, -⟩
  · simp at h2
  · exact h1

theorem mergeLoop_ne_none_nonroot :
    ∀ (fuel : Nat) (st : Node), nonRootEntries st < fuel →
      mergeLoop fuel st ≠ none := by
  intro fuel
  induction fuel with
  | zero => intro st h; omega
  | succ fuel' ih =>
    intro st h
    rw [mergeLoop]
    cases hs : scanMerges st with
    | error err => simp
    | ok p =>
      obtain ⟨st₁, ch⟩ := p
      cases ch with
      | false => simp
      | true =>
        have hlt : nonRootEntries st₁ < nonRootEntries st :=
          scanMerges_true_nonroot hs
        simpa using ih st₁ (by omega)

/-- C2 counterexample — an accepted merge does not reduce the number of
distinct root-level chunks: on the `EndingTrie` holding the single
reversed ending "ab", one scan accepts a merge (the changed flag is set)
and the root grows from one chunk (`a`) to two (`a` and `ab`), since the
merge deletes only the depth-2 child and adds a root key. -/
theorem merge_rootchunk_counterexample :
    (addSeq Node.empty [['a'], ['b']]).children.length = 1 ∧
      (scanMerges (addSeq Node.empty [['a'], ['b']])).toOption.map
        (fun x => (x.1.children.length, x.2)) = some (2, true) :=
  ⟨rfl, by decide⟩

/-- C2 amended — the merge loop of `collapse_endings` always halts, and
it completes within a number of scans bounded by the trie's initial node
count (`numEntries st + 1`: one node per entry plus the root node), but
not by the claimed mechanism: an accepted merge deletes only the depth-2
child and re-adds it under a root key, so the number of distinct
root-level chunks never decreases.  Instead every scan that performs at
least one accepted merge strictly reduces the number of non-root entries
of the trie, which is below the node count, so the loop reaches a scan
with zero merges — or a `KeyError` on a degenerate state — within
node-count many scans. -/
theorem merge_loop_halts (st : Node) :
    mergeLoop (numEntries st + 1) st ≠ none ∧
      (∀ st', scanMerges st = .ok (st', true) →
        nonRootEntries st' < nonRootEntries st) ∧
      (∀ st', scanMerges st = .ok (st', false) → st' = st) := by
  refine ⟨?_, fun _ h => scanMerges_true_nonroot h,
    fun _ h => scanMerges_false h⟩
  apply mergeLoop_ne_none_nonroot
  obtain ⟨cs, b⟩ := st
  have h1 : nonRootEntries (Node.mk cs b) = nreList cs := rfl
  have h2 : numEntries (Node.mk cs b) = numEntriesList cs := by
    rw [numEntries]
  have h3 := nreList_le_numEntriesList cs
  omega

/-!
## C8 — the zero-evidence counter
-/

/-- C8 counterexample — a `StemEndingCounter` with zero co-occurrence
evidence does not fail its dominance ranking at all: `most_common` is
not an error (it returns an empty ranking), contradicting the claim that
it fails with a DegenerateInput condition. -/
theorem empty_counter_counterexample :
    SEC.mostCommon SEC.empty ≠ Except.error () := by
  intro h
  rw [show SEC.mostCommon SEC.empty = .ok [] from rfl] at h
  cases h

/-- C8 amended — a `StemEndingCounter` with zero evidence returns an
empty ranking: the filtered stem set is empty, so `optimize_words` and
`most_common` both return the empty list, raising neither a failure nor
an arithmetic error. -/
theorem empty_counter_amended :
    SEC.optimizeWords SEC.empty = .ok [] ∧
      SEC.mostCommon SEC.empty = .ok [] :=
  ⟨rfl, rfl⟩

/-!
## C10 — `__getitem__` on a `defaultdict` creates the entry
-/

theorem alookup_append {α : Type} (l : List (Sym × α)) (k : Sym) (v : α)
    (h : alookup l k = none) : alookup (l ++ [(k, v)]) k = some v := by
  induction l with
  | nil => simp [alookup]
  | cons hd tl ih =>
    obtain ⟨k', v'⟩ := hd
    by_cases hk : k' = k
    · rw [show alookup ((k', v') :: tl) k =
          if k' = k then some v' else alookup tl k from rfl,
        if_pos hk] at h
      cases h
    · rw [show alookup ((k', v') :: tl) k =
          if k' = k then some v' else alookup tl k from rfl,
        if_neg hk] at h
      rw [List.cons_append,
        show alookup ((k', v') :: (tl ++ [(k, v)])) k =
          if k' = k then some v' else alookup (tl ++ [(k, v)]) k from rfl,
        if_neg hk]
      exact ih h

/-- C10 — indexing a `StemEndingCounter` with an unseen stem is not
read-only: the `defaultdict` lookup returns a fresh empty `EndingTrie`
and stores it under the stem, so afterwards the stem is in `stems` and
the mapping holds the empty trie under it. -/
theorem sec_getitem_creates (c : SEC) (w : Sym)
    (h : alookup c.wordsEndings w = none) :
    (c.getItem w).1 = ETrie.empty ∧
      (c.getItem w).2.wordsEndings = c.wordsEndings ++ [(w, ETrie.empty)] ∧
      w ∈ (c.getItem w).2.stems ∧
      alookup (c.getItem w).2.wordsEndings w = some ETrie.empty := by
  have hg : c.getItem w = (ETrie.empty,
      { c with wordsEndings := c.wordsEndings ++ [(w, ETrie.empty)] }) := by
    simp only [SEC.getItem, h]
  rw [hg]
  refine ⟨rfl, rfl, ?_, alookup_append _ _ _ h⟩
  rw [SEC.stems]
  simp

/-- Witness for C10: the empty counter gains the stem "a". -/
theorem sec_getitem_creates_witness :
    (SEC.empty.getItem ['a']).1 = ETrie.empty ∧
      (SEC.empty.getItem ['a']).2.wordsEndings =
        SEC.empty.wordsEndings ++ [(['a'], ETrie.empty)] ∧
      ['a'] ∈ (SEC.empty.getItem ['a']).2.stems ∧
      alookup (SEC.empty.getItem ['a']).2.wordsEndings ['a'] =
        some ETrie.empty :=
  sec_getitem_creates SEC.empty ['a'] rfl

/-!
## C4 — the second collapse run

The first run reaches a merge fixpoint and prunes root chunks, so the
second run's scan accepts nothing; but the first run consumed the word
pool, so the second run rebuilds `endings` from the leftover pool (empty
when every word was assigned).
-/

/-- A candidate pair the scan does not merge: a falsy key, or a failing
acceptance test. -/
def rejectedPair (st : Node) (e n : Sym) : Prop :=
  n = [] ∨ mergeAccepted st e n = false

theorem tryMergeStep_of_rejected {st : Node} {e n : Sym}
    (h : rejectedPair st e n) : tryMergeStep st e n = .ok (st, false) := by
  rcases h with h | h
  · rw [tryMergeStep, if_pos h]
  · rw [tryMergeStep]
    by_cases hn : n = []
    · rw [if_pos hn]
    · rw [if_neg hn, if_neg (by simp [h])]

theorem tryMergeStep_rejected_of_false {st st' : Node} {e n : Sym}
    (h : tryMergeStep st e n = .ok (st', false)) : rejectedPair st e n := by
  rw [tryMergeStep] at h
  by_cases hn : n = []
  · exact Or.inl hn
  · rw [if_neg hn] at h
    by_cases hacc : mergeAccepted st e n
    · rw [if_pos hacc] at h
      cases ha : applyMerge st e n with
      | error err => rw [ha] at h; simp [Except.map] at h
      | ok s => rw [ha] at h; simp [Except.map] at h
    · exact Or.inr (by simpa using hacc)

theorem innerScan_flag_mono :
    ∀ (ns : List Sym) (e : Sym) (st st' : Node) (ch' : Bool),
      innerScan e ns st true = .ok (st', ch') → ch' = true := by
  intro ns
  induction ns with
  | nil =>
    intro e st st' ch' h
    rw [innerScan] at h
    simp at h
    exact h.2
  | cons n rest ih =>
    intro e st st' ch' h
    rw [innerScan] at h
    cases ht : tryMergeStep st e n with
    | error err => rw [ht] at h; simp [bind, Except.bind] at h
    | ok p =>
      obtain ⟨st₁, c₁⟩ := p
      rw [ht] at h
      simp only [bind, Except.bind, Bool.true_or] at h
      exact ih e st₁ st' ch' h

theorem outerScan_flag_mono :
    ∀ (entries : List (Sym × Node)) (st st' : Node) (ch' : Bool),
      outerScan entries st true = .ok (st', ch') → ch' = true := by
  intro entries
  induction entries with
  | nil =>
    intro st st' ch' h
    rw [outerScan] at h
    simp at h
    exact h.2
  | cons hd rest ih =>
    intro st st' ch' h
    obtain ⟨e, eNode⟩ := hd
    rw [outerScan] at h
    cases hi : innerScan e (eNode.children.map Prod.fst) st true with
    | error err => rw [hi] at h; simp [bind, Except.bind] at h
    | ok p =>
      obtain ⟨st₁, c₁⟩ := p
      obtain rfl := innerScan_flag_mono _ e st st₁ c₁ hi
      rw [hi] at h
      simp only [bind, Except.bind] at h
      exact ih st₁ st' ch' h

theorem innerScan_false_rejected :
    ∀ (ns : List Sym) (e : Sym) (st st' : Node) (ch : Bool),
      innerScan e ns st ch = .ok (st', false) →
      st' = st ∧ ch = false ∧ ∀ n ∈ ns, rejectedPair st e n := by
  intro ns
  induction ns with
  | nil =>
    intro e st st' ch h
    rw [innerScan] at h
    simp at h
    exact ⟨h.1.symm, h.2, by simp⟩
  | cons n rest ih =>
    intro e st st' ch h
    rw [innerScan] at h
    cases ht : tryMergeStep st e n with
    | error err => rw [ht] at h; simp [bind, Except.bind] at h
    | ok p =>
      obtain ⟨st₁, c₁⟩ := p
      rw [ht] at h
      simp only [bind, Except.bind] at h
      cases c₁ with
      | true =>
        have hcontra := innerScan_flag_mono _ e st₁ st' false (by simpa using h)
        simp at hcontra
      | false =>
        obtain rfl := tryMergeStep_false ht
        obtain ⟨rfl, rfl, hrest⟩ := ih e st₁ st' ch (by simpa using h)
        refine ⟨rfl, rfl, ?_⟩
        intro n' hn'
        rcases List.mem_cons.mp hn' with rfl | hn'
        · exact tryMergeStep_rejected_of_false ht
        · exact hrest n' hn'

theorem outerScan_false_rejected :
    ∀ (entries : List (Sym × Node)) (st st' : Node) (ch : Bool),
      outerScan entries st ch = .ok (st', false) →
      st' = st ∧ ch = false ∧ ∀ p ∈ entries,
        ∀ n ∈ (Prod.snd p).children.map Prod.fst,
          rejectedPair st p.1 n := by
  intro entries
  induction entries with
  | nil =>
    intro st st' ch h
    rw [outerScan] at h
    simp at h
    exact ⟨h.1.symm, h.2, by simp⟩
  | cons hd rest ih =>
    intro st st' ch h
    obtain ⟨e, eNode⟩ := hd
    rw [outerScan] at h
    cases hi : innerScan e (eNode.children.map Prod.fst) st ch with
    | error err => rw [hi] at h; simp [bind, Except.bind] at h
    | ok p =>
      obtain ⟨st₁, c₁⟩ := p
      rw [hi] at h
      simp only [bind, Except.bind] at h
      cases c₁ with
      | true =>
        have hcontra := outerScan_flag_mono _ st₁ st' false h
        simp at hcontra
      | false =>
        obtain ⟨rfl, rfl, hns⟩ := innerScan_false_rejected _ e st st₁ ch hi
        obtain ⟨rfl, -, hrest⟩ := ih _ st' false h
        refine ⟨rfl, rfl, ?_⟩
        intro p hp n hn
        rcases List.mem_cons.mp hp with rfl | hp
        · exact hns n hn
        · exact hrest p hp n hn

theorem innerScan_all_rejected :
    ∀ (ns : List Sym) (e : Sym) (st : Node) (ch : Bool),
      (∀ n ∈ ns, rejectedPair st e n) →
      innerScan e ns st ch = .ok (st, ch) := by
  intro ns
  induction ns with
  | nil => intro e st ch _; rw [innerScan]
  | cons n rest ih =>
    intro e st ch h
    rw [innerScan, tryMergeStep_of_rejected (h n (List.mem_cons_self _ _))]
    simp only [bind, Except.bind, Bool.or_false]
    exact ih e st ch fun n' hn' => h n' (List.mem_cons_of_mem _ hn')

theorem outerScan_all_rejected :
    ∀ (entries : List (Sym × Node)) (st : Node) (ch : Bool),
      (∀ p ∈ entries, ∀ n ∈ (Prod.snd p).children.map Prod.fst,
        rejectedPair st p.1 n) →
      outerScan entries st ch = .ok (st, ch) := by
  intro entries
  induction entries with
  | nil => intro st ch _; rw [outerScan]
  | cons hd rest ih =>
    intro st ch h
    obtain ⟨e, eNode⟩ := hd
    rw [outerScan,
      innerScan_all_rejected _ e st ch (h (e, eNode) (List.mem_cons_self _ _))]
    simp only [bind, Except.bind]
    exact ih st ch fun p hp => h p (List.mem_cons_of_mem _ hp)

theorem scanMerges_of_rejected {st : Node}
    (h : ∀ p ∈ st.children, ∀ n ∈ (Prod.snd p).children.map Prod.fst,
      rejectedPair st p.1 n) :
    scanMerges st = .ok (st, false) := by
  rw [scanMerges]
  exact outerScan_all_rejected _ st false h

theorem mergeLoop_fixpoint :
    ∀ (fuel : Nat) (st st₁ : Node),
      mergeLoop fuel st = some (.ok st₁) →
      scanMerges st₁ = .ok (st₁, false) := by
  intro fuel
  induction fuel with
  | zero => intro st st₁ h; rw [mergeLoop] at h; cases h
  | succ fuel' ih =>
    intro st st₁ h
    rw [mergeLoop] at h
    cases hs : scanMerges st with
    | error err => rw [hs] at h; simp at h
    | ok p =>
      obtain ⟨st', ch⟩ := p
      rw [hs] at h
      cases ch with
      | true => exact ih st' st₁ (by simpa using h)
      | false =>
        simp only [if_neg (by simp : ¬(false = true)), Option.some.injEq,
          Except.ok.injEq] at h
        obtain rfl := h
        obtain rfl := scanMerges_false hs
        exact hs

/-!
Root-level key uniqueness is preserved by the merge loop: a merge
replaces one root entry in place and inserts or replaces the merged key.
-/

theorem setChild_keys_none {cs : List (Sym × Node)} {k : Sym} (v : Node)
    (h : lookupChild cs k = none) :
    (setChild cs k v).map Prod.fst = cs.map Prod.fst ++ [k] := by
  induction cs with
  | nil => simp [setChild]
  | cons hd tl ih =>
    obtain ⟨k', t⟩ := hd
    by_cases hk : k' = k
    · rw [show lookupChild ((k', t) :: tl) k =
          if k' = k then some t else lookupChild tl k from rfl,
        if_pos hk] at h
      cases h
    · rw [show lookupChild ((k', t) :: tl) k =
          if k' = k then some t else lookupChild tl k from rfl,
        if_neg hk] at h
      rw [show setChild ((k', t) :: tl) k v =
          if k' = k then (k, v) :: tl else (k', t) :: setChild tl k v
          from rfl, if_neg hk]
      simp [ih h]

theorem setChild_keys_nodup {cs : List (Sym × Node)} {k : Sym} (v : Node)
    (h : (cs.map Prod.fst).Nodup) :
    ((setChild cs k v).map Prod.fst).Nodup := by
  cases hl : lookupChild cs k with
  | none =>
    rw [setChild_keys_none v hl]
    rw [List.nodup_append]
    refine ⟨h, List.nodup_singleton _, ?_⟩
    intro a ha hb
    simp only [List.mem_singleton] at hb
    subst hb
    exact lookupChild_eq_none_iff.mp hl ha
  | some w =>
    rw [keys_setChild v (by simp [hl])]
    exact h

theorem applyMerge_rootNodup {st st' : Node} {e n : Sym}
    (h : applyMerge st e n = .ok st')
    (hw : (st.children.map Prod.fst).Nodup) :
    (st'.children.map Prod.fst).Nodup := by
  cases hp : nodeAt st [e, n] with
  | none => rw [applyMerge, hp] at h; cases h
  | some sub =>
    rw [applyMerge, hp] at h
    cases hl : lookupChild (setChild st.children (e ++ n) sub) e with
    | none => simp only [hl] at h; cases h
    | some eN =>
      simp only [hl] at h
      obtain rfl := Except.ok.injEq .. ▸ h
      simp only [Node.children]
      exact setChild_keys_nodup _ (setChild_keys_nodup _ hw)

theorem tryMergeStep_rootNodup {st st' : Node} {e n : Sym} {ch : Bool}
    (h : tryMergeStep st e n = .ok (st', ch))
    (hw : (st.children.map Prod.fst).Nodup) :
    (st'.children.map Prod.fst).Nodup := by
  rw [tryMergeStep] at h
  by_cases hn : n = []
  · rw [if_pos hn] at h
    simp at h
    exact h.1 ▸ hw
  · rw [if_neg hn] at h
    by_cases hacc : mergeAccepted st e n
    · rw [if_pos hacc] at h
      cases ha : applyMerge st e n with
      | error err => rw [ha] at h; simp [Except.map] at h
      | ok s =>
        rw [ha] at h
        simp only [Except.map, Except.ok.injEq, Prod.mk.injEq] at h
        obtain ⟨rfl, -⟩ := h
        exact applyMerge_rootNodup ha hw
    · rw [if_neg hacc] at h
      simp at h
      exact h.1 ▸ hw

theorem innerScan_rootNodup :
    ∀ (ns : List Sym) (e : Sym) (st : Node) (ch : Bool) (st' : Node)
      (ch' : Bool), innerScan e ns st ch = .ok (st', ch') →
      (st.children.map Prod.fst).Nodup →
      (st'.children.map Prod.fst).Nodup := by
  intro ns
  induction ns with
  | nil =>
    intro e st ch st' ch' h hw
    rw [innerScan] at h
    simp at h
    exact h.1 ▸ hw
  | cons n rest ih =>
    intro e st ch st' ch' h hw
    rw [innerScan] at h
    cases ht : tryMergeStep st e n with
    | error err => rw [ht] at h; simp [bind, Except.bind] at h
    | ok p =>
      obtain ⟨st₁, c₁⟩ := p
      rw [ht] at h
      simp only [bind, Except.bind] at h
      exact ih e st₁ _ st' ch' h (tryMergeStep_rootNodup ht hw)

theorem outerScan_rootNodup :
    ∀ (entries : List (Sym × Node)) (st : Node) (ch : Bool) (st' : Node)
      (ch' : Bool), outerScan entries st ch = .ok (st', ch') →
      (st.children.map Prod.fst).Nodup →
      (st'.children.map Prod.fst).Nodup := by
  intro entries
  induction entries with
  | nil =>
    intro st ch st' ch' h hw
    rw [outerScan] at h
    simp at h
    exact h.1 ▸ hw
  | cons hd rest ih =>
    intro st ch st' ch' h hw
    obtain ⟨e, eNode⟩ := hd
    rw [outerScan] at h
    cases hi : innerScan e (eNode.children.map Prod.fst) st ch with
    | error err => rw [hi] at h; simp [bind, Except.bind] at h
    | ok p =>
      obtain ⟨st₁, c₁⟩ := p
      rw [hi] at h
      simp only [bind, Except.bind] at h
      exact ih st₁ _ st' ch' h (innerScan_rootNodup _ e st ch st₁ c₁ hi hw)

theorem mergeLoop_rootNodup :
    ∀ (fuel : Nat) (st st₁ : Node),
      mergeLoop fuel st = some (.ok st₁) →
      (st.children.map Prod.fst).Nodup →
      (st₁.children.map Prod.fst).Nodup := by
  intro fuel
  induction fuel with
  | zero => intro st st₁ h _; rw [mergeLoop] at h; cases h
  | succ fuel' ih =>
    intro st st₁ h hw
    rw [mergeLoop] at h
    cases hs : scanMerges st with
    | error err => rw [hs] at h; simp at h
    | ok p =>
      obtain ⟨st', ch⟩ := p
      rw [hs] at h
      have hw' : (st'.children.map Prod.fst).Nodup :=
        outerScan_rootNodup st.children st false st' ch hs hw
      cases ch with
      | true => exact ih st' st₁ (by simpa using h) hw'
      | false =>
        simp only [if_neg (by simp : ¬(false = true)), Option.some.injEq,
          Except.ok.injEq] at h
        exact h ▸ hw'

theorem assignEndings_nil_pool : ∀ (es : List Sym),
    assignEndings es [] = ([], []) := by
  intro es
  induction es with
  | nil => rfl
  | cons e rest ih =>
    rw [assignEndings]
    simp [ih]

/-- Dissecting a successful `collapse_endings` run into its
merge-fixpoint, pruned root, and assignment results. -/
theorem collapseEndings_ok_elim {tr tr₁ : ETrie}
    (h : collapseEndings tr = .ok tr₁) :
    ∃ st₁, mergeLoop (depthSum tr.root + 1) tr.root = some (.ok st₁) ∧
      tr₁.root = Node.mk (pruneSurvivors st₁) st₁.term ∧
      tr₁.endings = (assignEndings
        (sortByLenDesc ((pruneSurvivors st₁).map Prod.fst)) tr.words).1 ∧
      tr₁.words = (assignEndings
        (sortByLenDesc ((pruneSurvivors st₁).map Prod.fst)) tr.words).2 := by
  rw [collapseEndings] at h
  cases hml : mergeLoop (depthSum tr.root + 1) tr.root with
  | none => simp [hml] at h
  | some r =>
    cases r with
    | error err => simp [hml] at h
    | ok st₁ =>
      simp only [hml] at h
      by_cases hz : st₁.children.length = 0
      · rw [if_pos hz] at h; cases h
      · rw [if_neg hz] at h
        obtain rfl := Except.ok.injEq .. ▸ h
        exact ⟨st₁, rfl, rfl, rfl, rfl⟩

theorem numSuccessors_head_eq {cs cs' : List (Sym × Node)} {b b' : Bool}
    {e : Sym} {eN : Node} (h1 : lookupChild cs e = some eN)
    (h2 : lookupChild cs' e = some eN) (path : List Sym) :
    numSuccessors (Node.mk cs b) (e :: path) =
      numSuccessors (Node.mk cs' b') (e :: path) := by
  rw [numSuccessors, numSuccessors]
  rw [show nodeAt (Node.mk cs b) (e :: path) = nodeAt eN path from by
    simp [nodeAt, Node.children, h1]]
  rw [show nodeAt (Node.mk cs' b') (e :: path) = nodeAt eN path from by
    simp [nodeAt, Node.children, h2]]

/-- C4 counterexample — collapsing the `EndingTrie` with the single
reversed ending "ab" (one pooled word) yields the ending set
`{"ab": 1}`; collapsing the result again yields the empty ending set,
not an identical one: the first run consumed the word pool. -/
theorem collapse_not_idempotent_counterexample :
    ((collapseEndings
        (ETrie.mk (addSeq Node.empty [['a'], ['b']]) [(['a','b'], 1)] [])
      ).toOption.map ETrie.endings = some [(['a','b'], 1)]) ∧
      ((collapseEndings
          (ETrie.mk (addSeq Node.empty [['a'], ['b']]) [(['a','b'], 1)] [])
        ).bind collapseEndings).toOption.map ETrie.endings = some [] :=
  ⟨rfl, rfl⟩

/-- C4 amended — on a second collapse run the merge phase performs zero
merges (the first run reached a merge fixpoint, and pruning root chunks
cannot re-enable a rejected merge); but the first run consumed the word
pool, so when it assigned every word the second run rebuilds the ending
counter from an empty pool and produces the empty ending set rather than
an identical one. -/
theorem collapse_twice (tr tr₁ : ETrie)
    (hwf : (tr.root.children.map Prod.fst).Nodup)
    (h : collapseEndings tr = .ok tr₁) :
    scanMerges tr₁.root = .ok (tr₁.root, false) ∧
      (tr₁.words = [] → ∀ tr₂, collapseEndings tr₁ = .ok tr₂ →
        tr₂.endings = []) := by
  obtain ⟨st₁, hml, hroot, hends, hwords⟩ := collapseEndings_ok_elim h
  have hnd₁ : (st₁.children.map Prod.fst).Nodup :=
    mergeLoop_rootNodup _ _ _ hml hwf
  have hfix : scanMerges st₁ = .ok (st₁, false) := mergeLoop_fixpoint _ _ _ hml
  have hrej := (outerScan_false_rejected st₁.children st₁ st₁ false hfix).2.2
  obtain ⟨cs₁, b₁⟩ := st₁
  have hsub : ∀ p ∈ pruneSurvivors (Node.mk cs₁ b₁), p ∈ cs₁ := by
    intro p hp
    rw [pruneSurvivors] at hp
    exact List.mem_of_mem_filter hp
  have hnds : ((pruneSurvivors (Node.mk cs₁ b₁)).map Prod.fst).Nodup := by
    have hsubl : List.Sublist
        ((pruneSurvivors (Node.mk cs₁ b₁)).map Prod.fst)
        (cs₁.map Prod.fst) := by
      rw [pruneSurvivors]
      exact (List.filter_sublist _).map _
    exact hsubl.nodup hnd₁
  constructor
  · rw [hroot]
    apply scanMerges_of_rejected
    intro p hp n hn
    obtain ⟨e, eN⟩ := p
    simp only [Node.children] at hp
    have hp₁ : (e, eN) ∈ cs₁ := hsub _ hp
    have hrejp := hrej (e, eN) hp₁ n hn
    rcases hrejp with rfl | hacc
    · exact Or.inl rfl
    · refine Or.inr ?_
      have hl₂ : lookupChild (pruneSurvivors (Node.mk cs₁ b₁)) e = some eN :=
        lookupChild_eq_of_mem hnds hp
      have hl₁ : lookupChild cs₁ e = some eN :=
        lookupChild_eq_of_mem hnd₁ hp₁
      rw [mergeAccepted] at hacc ⊢
      dsimp only at hacc ⊢
      rw [numSuccessors_head_eq hl₂ hl₁ ([] : List Sym),
        numSuccessors_head_eq hl₂ hl₁ [n]]
      exact hacc
  · intro hnil tr₂ h₂
    obtain ⟨st₂, -, -, hends₂, -⟩ := collapseEndings_ok_elim h₂
    rw [hends₂, hnil, assignEndings_nil_pool]

/-- Witness for C4's amended theorem at the concrete one-word trie. -/
theorem collapse_twice_witness :
    scanMerges (ETrie.mk (Node.mk [(['a','b'], Node.mk [] true)] false)
        [] [(['a','b'], 1)]).root =
      .ok ((ETrie.mk (Node.mk [(['a','b'], Node.mk [] true)] false)
        [] [(['a','b'], 1)]).root, false) ∧
      ((ETrie.mk (Node.mk [(['a','b'], Node.mk [] true)] false)
          [] [(['a','b'], 1)]).words = [] →
        ∀ tr₂, collapseEndings (ETrie.mk
            (Node.mk [(['a','b'], Node.mk [] true)] false)
            [] [(['a','b'], 1)]) = .ok tr₂ →
          tr₂.endings = []) :=
  collapse_twice
    (ETrie.mk (addSeq Node.empty [['a'], ['b']]) [(['a','b'], 1)] [])
    (ETrie.mk (Node.mk [(['a','b'], Node.mk [] true)] false)
      [] [(['a','b'], 1)])
    (by decide) (by rfl)

/-!
## C6 — longest-match assignment of pooled words to surviving chunks
-/

/-- `c` is the longest chunk of `C` that is a prefix of the (reversed)
word `w` (`word[:len(ending)] == ending`); equal-length distinct chunks
cannot both match, so this chunk is unique when it exists. -/
def isLongestMatch (C : List Sym) (w c : Sym) : Prop :=
  c ∈ C ∧ w.take c.length = c ∧
    ∀ c' ∈ C, w.take c'.length = c' → c'.length ≤ c.length

instance (C : List Sym) (w c : Sym) : Decidable (isLongestMatch C w c) := by
  rw [isLongestMatch]
  infer_instance

theorem sum_filter_partition (p : Sym × Nat → Bool)
    (l : List (Sym × Nat)) :
    ((l.filter p).map Prod.snd).sum +
      ((l.filter fun a => !(p a)).map Prod.snd).sum =
      (l.map Prod.snd).sum := by
  induction l with
  | nil => simp
  | cons hd tl ih =>
    cases hp : p hd <;> simp [List.filter_cons, hp] <;> omega

theorem counterGet_assign_notmem :
    ∀ (es : List Sym) (pool : List (Sym × Nat)) (c : Sym), c ∉ es →
      counterGet (assignEndings es pool).1 c = 0 := by
  intro es
  induction es with
  | nil => intro pool c _; rfl
  | cons e rest ih =>
    intro pool c hc
    have hce : e ≠ c := fun h => hc (h ▸ List.mem_cons_self _ _)
    have hcr : c ∉ rest := fun h => hc (List.mem_cons_of_mem _ h)
    rw [assignEndings]
    dsimp only
    split
    · exact ih _ c hcr
    · simp only [counterGet, if_neg hce]
      exact ih _ c hcr

theorem take_eq_of_len_le {w c c' : Sym} (h1 : w.take c.length = c)
    (h2 : w.take c'.length = c') (hle : c.length ≤ c'.length)
    (hle' : c'.length ≤ c.length) : c = c' := by
  have hlen : c.length = c'.length := le_antisymm hle hle'
  rw [← h1, ← h2, hlen]

theorem isLongestMatch_head_iff {e : Sym} {rest : List Sym} {w : Sym}
    (hle : ∀ b ∈ rest, b.length ≤ e.length) :
    isLongestMatch (e :: rest) w e ↔ w.take e.length = e := by
  constructor
  · rintro ⟨-, hm, -⟩; exact hm
  · intro hm
    refine ⟨List.mem_cons_self _ _, hm, ?_⟩
    intro c' hc' hm'
    rcases List.mem_cons.mp hc' with rfl | hc'
    · exact le_refl _
    · exact hle c' hc'

theorem isLongestMatch_tail_iff {e : Sym} {rest : List Sym} {w c : Sym}
    (hle : ∀ b ∈ rest, b.length ≤ e.length) (hnotin : e ∉ rest)
    (hc : c ∈ rest) :
    isLongestMatch (e :: rest) w c ↔
      (¬(w.take e.length = e) ∧ isLongestMatch rest w c) := by
  constructor
  · rintro ⟨-, hm, hlong⟩
    constructor
    · intro hPe
      have h1 : e.length ≤ c.length := hlong e (List.mem_cons_self _ _) hPe
      have h2 : c.length ≤ e.length := hle c hc
      obtain rfl := take_eq_of_len_le hm hPe h2 h1
      exact hnotin hc
    · exact ⟨hc, hm, fun c' hc' hm' =>
        hlong c' (List.mem_cons_of_mem _ hc') hm'⟩
  · rintro ⟨hPe, ⟨-, hm, hlong⟩⟩
    refine ⟨List.mem_cons_of_mem _ hc, hm, ?_⟩
    intro c' hc' hm'
    rcases List.mem_cons.mp hc' with rfl | hc'
    · exact absurd hm' hPe
    · exact hlong c' hc' hm'

theorem assignEndings_core :
    ∀ (es : List Sym) (pool : List (Sym × Nat)),
      es.Sorted (fun a b => b.length ≤ a.length) → es.Nodup →
      ((assignEndings es pool).2 =
        pool.filter fun wc => decide (∀ c ∈ es, ¬ wc.1.take c.length = c)) ∧
      (∀ c ∈ es, counterGet (assignEndings es pool).1 c =
        ((pool.filter fun wc =>
          decide (isLongestMatch es wc.1 c)).map Prod.snd).sum) := by
  intro es
  induction es with
  | nil =>
    intro pool _ _
    refine ⟨?_, by simp⟩
    rw [show (assignEndings [] pool).2 = pool from rfl]
    symm
    rw [List.filter_eq_self]
    intro a _
    simp
  | cons e rest ih =>
    intro pool hsort hnd
    rw [List.sorted_cons] at hsort
    obtain ⟨hle, hsort'⟩ := hsort
    rw [List.nodup_cons] at hnd
    obtain ⟨hnotin, hnd'⟩ := hnd
    have hih := ih (pool.filter fun wc => decide (¬(wc.1.take e.length = e)))
      hsort' hnd'
    have hsnd : (assignEndings (e :: rest) pool).2 =
        (assignEndings rest (pool.filter fun wc =>
          decide (¬(wc.1.take e.length = e)))).2 := rfl
    constructor
    · rw [hsnd, hih.1, List.filter_filter]
      refine List.filter_congr ?_
      intro wc _
      by_cases h1 : List.take e.length wc.1 = e <;>
        by_cases h2 : ∀ c ∈ rest, ¬List.take c.length wc.1 = c <;>
          simp [h1, h2, List.forall_mem_cons]
    · intro c hc
      rcases List.mem_cons.mp hc with rfl | hc
      · have hfe : (pool.filter fun wc =>
            decide (isLongestMatch (c :: rest) wc.1 c)) =
            (pool.filter fun wc => decide (wc.1.take c.length = c)) := by
          refine List.filter_congr ?_
          intro wc _
          rw [decide_eq_decide]
          exact isLongestMatch_head_iff hle
        rw [hfe, assignEndings]
        dsimp only
        split
        · rename_i hm
          rw [counterGet_assign_notmem rest _ c hnotin]
          rw [List.isEmpty_iff] at hm
          rw [hm]
          rfl
        · simp [counterGet]
      · have hce : e ≠ c := fun h => hnotin (h ▸ hc)
        have hfc : (pool.filter fun wc =>
            decide (isLongestMatch (e :: rest) wc.1 c)) =
            ((pool.filter fun wc => decide (¬(wc.1.take e.length = e))).filter
              fun wc => decide (isLongestMatch rest wc.1 c)) := by
          rw [List.filter_filter]
          refine List.filter_congr ?_
          intro wc _
          rw [show (decide (isLongestMatch (e :: rest) wc.1 c)) =
            decide (¬(wc.1.take e.length = e) ∧ isLongestMatch rest wc.1 c)
            from decide_eq_decide.mpr
              (isLongestMatch_tail_iff hle hnotin hc)]
          simp [Bool.and_comm]
        rw [hfc, ← hih.2 c hc, assignEndings]
        dsimp only
        split
        · rfl
        · simp only [counterGet, if_neg hce]

theorem isLongestMatch_perm {C C' : List Sym} (hp : C.Perm C') (w c : Sym) :
    isLongestMatch C w c ↔ isLongestMatch C' w c := by
  constructor <;> rintro ⟨h1, h2, h3⟩
  · exact ⟨hp.mem_iff.mp h1, h2,
      fun c' hc' hm => h3 c' (hp.mem_iff.mpr hc') hm⟩
  · exact ⟨hp.mem_iff.mpr h1, h2,
      fun c' hc' hm => h3 c' (hp.mem_iff.mp hc') hm⟩

theorem sortByLenDesc_perm (l : List Sym) : (sortByLenDesc l).Perm l :=
  List.perm_insertionSort _ l

theorem sortByLenDesc_sorted (l : List Sym) :
    (sortByLenDesc l).Sorted (fun a b => b.length ≤ a.length) := by
  haveI : IsTotal Sym (fun a b => b.length ≤ a.length) :=
    ⟨fun a b => le_total b.length a.length⟩
  haveI : IsTrans Sym (fun a b => b.length ≤ a.length) :=
    ⟨fun a b c hab hbc => le_trans hbc hab⟩
  exact List.sorted_insertionSort _ l

/-- C6 — the final phase of `collapse_endings`: surviving root chunks are
processed longest first, and every pooled word that some surviving chunk
prefixes is assigned to the longest such chunk — its count accumulated
into that chunk's ending counter and the word removed from the pool — so
each word is assigned to at most one ending, and the leftover pool is
exactly the words no surviving chunk prefixes. -/
theorem collapse_assignment (tr tr₁ : ETrie)
    (hwf : (tr.root.children.map Prod.fst).Nodup)
    (h : collapseEndings tr = .ok tr₁) :
    (tr₁.words = tr.words.filter fun wc =>
      decide (∀ c ∈ tr₁.root.children.map Prod.fst,
        ¬ wc.1.take c.length = c)) ∧
    (∀ c ∈ tr₁.root.children.map Prod.fst,
      counterGet tr₁.endings c =
        ((tr.words.filter fun wc =>
          decide (isLongestMatch (tr₁.root.children.map Prod.fst)
            wc.1 c)).map Prod.snd).sum) := by
  obtain ⟨st₁, hml, hroot, hends, hwords⟩ := collapseEndings_ok_elim h
  have hnd₁ : (st₁.children.map Prod.fst).Nodup :=
    mergeLoop_rootNodup _ _ _ hml hwf
  have hCnd : ((pruneSurvivors st₁).map Prod.fst).Nodup := by
    have hsubl : List.Sublist ((pruneSurvivors st₁).map Prod.fst)
        (st₁.children.map Prod.fst) := by
      rw [pruneSurvivors]
      exact (List.filter_sublist _).map _
    exact hsubl.nodup hnd₁
  have hperm := sortByLenDesc_perm ((pruneSurvivors st₁).map Prod.fst)
  have hsorted := sortByLenDesc_sorted ((pruneSurvivors st₁).map Prod.fst)
  have hesnd : (sortByLenDesc ((pruneSurvivors st₁).map Prod.fst)).Nodup :=
    hperm.nodup_iff.mpr hCnd
  obtain ⟨hcore1, hcore2⟩ :=
    assignEndings_core (sortByLenDesc ((pruneSurvivors st₁).map Prod.fst))
      tr.words hsorted hesnd
  have hchild : tr₁.root.children = pruneSurvivors st₁ := by
    rw [hroot]
    rfl
  constructor
  · rw [hwords, hcore1, hchild]
    refine List.filter_congr ?_
    intro wc _
    rw [decide_eq_decide]
    constructor
    · intro hall c hc
      exact hall c (hperm.mem_iff.mpr hc)
    · intro hall c hc
      exact hall c (hperm.mem_iff.mp hc)
  · intro c hcmem
    rw [hchild] at hcmem
    rw [hends, hcore2 c (hperm.mem_iff.mpr hcmem), hchild]
    congr 1
    congr 1
    refine List.filter_congr ?_
    intro wc _
    rw [decide_eq_decide]
    exact isLongestMatch_perm hperm wc.1 c

/-- Witness for C6 at the one-word `EndingTrie`: the surviving chunk
"ab" claims the pooled word "ab" with count 1, and the pool empties. -/
theorem collapse_assignment_witness :
    ((ETrie.mk (Node.mk [(['a','b'], Node.mk [] true)] false)
        [] [(['a','b'], 1)]).words =
      (ETrie.mk (addSeq Node.empty [['a'], ['b']]) [(['a','b'], 1)] []).words.filter
        (fun wc => decide (∀ c ∈ (ETrie.mk
            (Node.mk [(['a','b'], Node.mk [] true)] false)
            [] [(['a','b'], 1)]).root.children.map Prod.fst,
          ¬ wc.1.take c.length = c))) ∧
    (∀ c ∈ (ETrie.mk (Node.mk [(['a','b'], Node.mk [] true)] false)
        [] [(['a','b'], 1)]).root.children.map Prod.fst,
      counterGet (ETrie.mk (Node.mk [(['a','b'], Node.mk [] true)] false)
          [] [(['a','b'], 1)]).endings c =
        (((ETrie.mk (addSeq Node.empty [['a'], ['b']])
            [(['a','b'], 1)] []).words.filter fun wc =>
          decide (isLongestMatch ((ETrie.mk
              (Node.mk [(['a','b'], Node.mk [] true)] false)
              [] [(['a','b'], 1)]).root.children.map Prod.fst)
            wc.1 c)).map Prod.snd).sum) :=
  collapse_assignment
    (ETrie.mk (addSeq Node.empty [['a'], ['b']]) [(['a','b'], 1)] [])
    (ETrie.mk (Node.mk [(['a','b'], Node.mk [] true)] false)
      [] [(['a','b'], 1)])
    (by decide) (by rfl)

/-!
## C7 — bounds on the dominance values of the ranking

The dominance `top_vs_all` of a ranked stem divides the count of its most
common collapsed ending by the stem's global co-occurrence count
(`self.word_counter[word]`).  The chain below tracks the per-stem
evidence counts from `add` through `collapse_endings` to
`optimize_words`: the per-word pool of each stem's trie sums exactly to
the stem's global count, collapse conserves that sum between the endings
counter and the leftover pool, and every recorded count is positive.
-/

theorem alookup_secUpdate_self (m : List (Sym × ETrie)) (k : Sym)
    (f : ETrie → ETrie) :
    alookup (secUpdate m k f) k =
      some (f ((alookup m k).getD ETrie.empty)) := by
  induction m with
  | nil => simp [secUpdate, alookup]
  | cons hd tl ih =>
    obtain ⟨k', tr⟩ := hd
    by_cases hk : k' = k
    · subst hk
      simp [secUpdate, alookup]
    · simp only [secUpdate, if_neg hk, alookup, ih]

theorem alookup_secUpdate_ne (m : List (Sym × ETrie)) (k s : Sym)
    (f : ETrie → ETrie) (h : s ≠ k) :
    alookup (secUpdate m k f) s = alookup m s := by
  induction m with
  | nil =>
    have hks : ¬(k = s) := fun hk => h hk.symm
    simp [secUpdate, alookup, hks]
  | cons hd tl ih =>
    obtain ⟨k', tr⟩ := hd
    by_cases hk : k' = k
    · subst hk
      have hks : ¬(k' = s) := fun hk => h hk.symm
      simp [secUpdate, alookup, hks]
    · simp only [secUpdate, if_neg hk, alookup, ih]

theorem counterGet_counterAdd_self (c : List (Sym × Nat)) (k : Sym)
    (n : Nat) : counterGet (counterAdd c k n) k = counterGet c k + n := by
  induction c with
  | nil => simp [counterAdd, counterGet]
  | cons hd tl ih =>
    obtain ⟨k', m⟩ := hd
    by_cases hk : k' = k
    · subst hk
      simp [counterAdd, counterGet]
    · simp only [counterAdd, if_neg hk, counterGet, ih]

theorem counterGet_counterAdd_ne (c : List (Sym × Nat)) (k s : Sym)
    (n : Nat) (h : s ≠ k) :
    counterGet (counterAdd c k n) s = counterGet c s := by
  induction c with
  | nil =>
    have hks : ¬(k = s) := fun hk => h hk.symm
    simp [counterAdd, counterGet, hks]
  | cons hd tl ih =>
    obtain ⟨k', m⟩ := hd
    by_cases hk : k' = k
    · subst hk
      have hks : ¬(k' = s) := fun hk => h hk.symm
      simp [counterAdd, counterGet, hks]
    · simp only [counterAdd, if_neg hk, counterGet, ih]

theorem sum_counterAdd (c : List (Sym × Nat)) (k : Sym) (n : Nat) :
    ((counterAdd c k n).map Prod.snd).sum = (c.map Prod.snd).sum + n := by
  induction c with
  | nil => simp [counterAdd]
  | cons hd tl ih =>
    obtain ⟨k', m⟩ := hd
    by_cases hk : k' = k
    · subst hk
      simp [counterAdd]
      omega
    · simp only [counterAdd, if_neg hk, List.map_cons, List.sum_cons, ih]
      omega

theorem counterAdd_pos (c : List (Sym × Nat)) (k : Sym) (n : Nat)
    (hc : ∀ p ∈ c, 0 < p.2) (hn : 0 < n) :
    ∀ p ∈ counterAdd c k n, 0 < p.2 := by
  induction c with
  | nil =>
    intro p hp
    rw [counterAdd] at hp
    rcases List.mem_singleton.mp hp with rfl
    exact hn
  | cons hd tl ih =>
    obtain ⟨k', m⟩ := hd
    intro p hp
    by_cases hk : k' = k
    · subst hk
      rw [counterAdd, if_pos rfl] at hp
      rcases List.mem_cons.mp hp with rfl | hp'
      · have := hc (k', m) (List.mem_cons_self _ _)
        simp at this ⊢
        omega
      · exact hc p (List.mem_cons_of_mem _ hp')
    · rw [counterAdd, if_neg hk] at hp
      rcases List.mem_cons.mp hp with rfl | hp'
      · exact hc (k', m) (List.mem_cons_self _ _)
      · exact ih (fun q hq => hc q (List.mem_cons_of_mem _ hq)) p hp'

/-- The evidence invariant `StemEndingCounter.add` maintains for every
stem: the per-word pool of the stem's trie sums to the stem's global
count, and every pooled count is positive. -/
def secInv (c : SEC) : Prop := ∀ s : Sym,
  ((((alookup c.wordsEndings s).getD ETrie.empty).words.map Prod.snd).sum
      = counterGet c.wordCounter s) ∧
  ∀ p ∈ ((alookup c.wordsEndings s).getD ETrie.empty).words, 0 < p.2

theorem secInv_empty : secInv SEC.empty := by
  intro s
  refine ⟨rfl, ?_⟩
  intro p hp
  exact absurd hp (List.not_mem_nil p)

theorem secInv_addOne (c : SEC) (w x : Sym) (h : secInv c) :
    secInv ⟨secUpdate c.wordsEndings w
        (fun tr => (tr.addEvidence x).addWord x),
      counterAdd c.wordCounter w 1⟩ := by
  intro s
  by_cases hs : s = w
  · subst hs
    rw [show (SEC.mk (secUpdate c.wordsEndings s
          (fun tr => (tr.addEvidence x).addWord x))
        (counterAdd c.wordCounter s 1)).wordsEndings =
        secUpdate c.wordsEndings s
          (fun tr => (tr.addEvidence x).addWord x) from rfl,
      alookup_secUpdate_self]
    refine ⟨?_, ?_⟩
    · rw [show (some ((((alookup c.wordsEndings s).getD
            ETrie.empty).addEvidence x).addWord x)).getD ETrie.empty =
          (((alookup c.wordsEndings s).getD
            ETrie.empty).addEvidence x).addWord x from rfl,
        show ((((alookup c.wordsEndings s).getD
            ETrie.empty).addEvidence x).addWord x).words =
          counterAdd ((alookup c.wordsEndings s).getD
            ETrie.empty).words x 1 from rfl,
        sum_counterAdd, (h s).1]
      exact (counterGet_counterAdd_self _ _ _).symm
    · intro p hp
      exact counterAdd_pos _ x 1 (h s).2 one_pos p hp
  · rw [show (SEC.mk (secUpdate c.wordsEndings w
          (fun tr => (tr.addEvidence x).addWord x))
        (counterAdd c.wordCounter w 1)).wordsEndings =
        secUpdate c.wordsEndings w
          (fun tr => (tr.addEvidence x).addWord x) from rfl,
      alookup_secUpdate_ne _ _ _ _ hs]
    refine ⟨?_, (h s).2⟩
    rw [(h s).1]
    exact (counterGet_counterAdd_ne _ _ _ _ hs).symm

theorem secInv_add (c : SEC) (w o : Sym) (h : secInv c) :
    secInv (c.add w o) := by
  have h₁ := secInv_addOne c w o.reverse h
  exact secInv_addOne ⟨secUpdate c.wordsEndings w
      (fun tr => (tr.addEvidence o.reverse).addWord o.reverse),
    counterAdd c.wordCounter w 1⟩ o w.reverse h₁

theorem secInv_applyAdds (pairs : List (Sym × Sym)) :
    secInv (applyAdds pairs) := by
  suffices h : ∀ c, secInv c →
      secInv (pairs.foldl (fun c p => c.add p.1 p.2) c) from
    h SEC.empty secInv_empty
  induction pairs with
  | nil => intro c hc; exact hc
  | cons p rest ih =>
    intro c hc
    simp only [List.foldl_cons]
    exact ih _ (secInv_add c p.1 p.2 hc)

theorem assignEndings_sum (es : List Sym) :
    ∀ pool : List (Sym × Nat),
      ((assignEndings es pool).1.map Prod.snd).sum +
        ((assignEndings es pool).2.map Prod.snd).sum =
        (pool.map Prod.snd).sum := by
  induction es with
  | nil => intro pool; simp [assignEndings]
  | cons e rest ih =>
    intro pool
    have hpart := sum_filter_partition
      (fun wc => decide (wc.1.take e.length = e)) pool
    have hih := ih (pool.filter fun wc => decide ¬(wc.1.take e.length = e))
    simp only [decide_not] at hih
    rw [assignEndings]
    dsimp only
    simp only [decide_not]
    split
    · rename_i hemp
      have hm0 := List.isEmpty_iff.mp hemp
      rw [hm0] at hpart
      simp only [List.map_nil, List.sum_nil, Nat.zero_add] at hpart
      omega
    · simp only [List.map_cons, List.sum_cons]
      omega

theorem assignEndings_pos (es : List Sym) :
    ∀ pool : List (Sym × Nat), (∀ p ∈ pool, 0 < p.2) →
      (∀ q ∈ (assignEndings es pool).1, 0 < q.2) ∧
      (∀ p ∈ (assignEndings es pool).2, 0 < p.2) := by
  induction es with
  | nil =>
    intro pool h
    exact ⟨fun q hq => absurd hq (List.not_mem_nil q), h⟩
  | cons e rest ih =>
    intro pool h
    have hrem : ∀ p ∈ pool.filter
        (fun wc => decide ¬(wc.1.take e.length = e)), 0 < p.2 :=
      fun p hp => h p (List.mem_of_mem_filter hp)
    rw [assignEndings]
    dsimp only
    constructor
    · split
      · exact (ih _ hrem).1
      · rename_i hemp
        intro q hq
        rcases List.mem_cons.mp hq with rfl | hq'
        · dsimp only
          cases hm : pool.filter
              (fun wc => decide (wc.1.take e.length = e)) with
          | nil => rw [hm] at hemp; simp at hemp
          | cons m ms =>
            have hmm : m ∈ pool.filter
                (fun wc => decide (wc.1.take e.length = e)) := by
              rw [hm]; exact List.mem_cons_self m ms
            have hm2 : 0 < m.2 := h m (List.mem_of_mem_filter hmm)
            simp only [List.map_cons, List.sum_cons]
            omega
        · exact (ih _ hrem).1 q hq'
    · exact (ih _ hrem).2

/-- Collapse conserves evidence: the rebuilt endings counter and the
leftover pool together sum to the original per-word pool, and positive
pool counts give positive ending counts. -/
theorem collapse_conservation (tr tr₁ : ETrie)
    (h : collapseEndings tr = .ok tr₁) :
    ((tr₁.endings.map Prod.snd).sum + (tr₁.words.map Prod.snd).sum
      = (tr.words.map Prod.snd).sum) ∧
    ((∀ p ∈ tr.words, 0 < p.2) → ∀ q ∈ tr₁.endings, 0 < q.2) := by
  obtain ⟨st₁, -, -, hends, hwords⟩ := collapseEndings_ok_elim h
  rw [hends, hwords]
  exact ⟨assignEndings_sum _ _, fun hp => (assignEndings_pos _ _ hp).1⟩

theorem mapCollapse_alookup :
    ∀ (m m' : List (Sym × ETrie)), mapCollapse m = .ok m' →
      ∀ s tr', alookup m' s = some tr' →
        ∃ tr, alookup m s = some tr ∧ collapseEndings tr = .ok tr' := by
  intro m
  induction m with
  | nil =>
    intro m' h s tr' h'
    rw [mapCollapse] at h
    obtain rfl : ([] : List (Sym × ETrie)) = m' := Except.ok.inj h
    exact absurd h' (by rw [alookup]; exact Option.noConfusion)
  | cons kv rest ih =>
    intro m' h s tr' h'
    obtain ⟨k, t⟩ := kv
    rw [mapCollapse] at h
    cases hct : collapseEndings t with
    | error e => simp [hct, bind, Except.bind] at h
    | ok t₁ =>
      cases hmr : mapCollapse rest with
      | error e => simp [hct, hmr, bind, Except.bind] at h
      | ok rest' =>
        simp only [hct, hmr, bind, Except.bind, pure, Except.pure,
          Except.ok.injEq] at h
        subst h
        rw [alookup] at h'
        by_cases hk : k = s
        · rw [if_pos hk] at h'
          obtain rfl : t₁ = tr' := Option.some.inj h'
          exact ⟨t, by rw [alookup, if_pos hk], hct⟩
        · rw [if_neg hk] at h'
          obtain ⟨tr, htr, hc⟩ := ih rest' hmr s tr' h'
          exact ⟨tr, by rw [alookup, if_neg hk]; exact htr, hc⟩

/-- Eliminating `StemEndingCounter.collapse_endings`: the global counter
is untouched, and every stored trie is the collapse of the stem's
original trie. -/
theorem collapseAll_elim (c c' : SEC) (h : c.collapseAll = .ok c') :
    c'.wordCounter = c.wordCounter ∧
    ∀ s tr', alookup c'.wordsEndings s = some tr' →
      ∃ tr, alookup c.wordsEndings s = some tr ∧
        collapseEndings tr = .ok tr' := by
  rw [SEC.collapseAll] at h
  cases hm : mapCollapse c.wordsEndings with
  | error e => simp [hm, bind, Except.bind] at h
  | ok we =>
    simp only [hm, bind, Except.bind, pure, Except.pure,
      Except.ok.injEq] at h
    subst h
    exact ⟨rfl, fun s tr' h' => mapCollapse_alookup _ _ hm s tr' h'⟩

theorem optRows_mem (wc : List (Sym × Nat)) :
    ∀ (l : List (Sym × ETrie)) (res : List OptEntry),
      optRows wc l = .ok res → ∀ ent ∈ res,
      ∃ kv ∈ l, ∃ t ts,
        mostCommonList kv.2.endings = t :: ts ∧
        counterGet wc kv.1 ≠ 0 ∧
        ent = ⟨kv.1, ((t :: ts).take 3).map (fun e => (e.1.reverse, e.2)),
               t.2, counterGet wc kv.1⟩ := by
  intro l
  induction l with
  | nil =>
    intro res h ent hent
    rw [optRows] at h
    obtain rfl : ([] : List OptEntry) = res := Except.ok.inj h
    exact absurd hent (List.not_mem_nil ent)
  | cons kv rest ih =>
    intro res h ent hent
    rw [optRows] at h
    dsimp only at h
    cases hmc : mostCommonList kv.2.endings with
    | nil => simp [hmc, bind, Except.bind] at h
    | cons t ts =>
      simp only [hmc] at h
      by_cases ht : counterGet wc kv.1 = 0
      · simp [ht, bind, Except.bind] at h
      · rw [if_neg ht] at h
        cases hor : optRows wc rest with
        | error e => simp [hor, bind, Except.bind] at h
        | ok res₀ =>
          simp only [hor, bind, Except.bind, pure, Except.pure,
            Except.ok.injEq] at h
          subst h
          rcases List.mem_cons.mp hent with rfl | hent₀
          · exact ⟨kv, List.mem_cons_self _ _, t, ts, hmc, ht, rfl⟩
          · obtain ⟨kv', hkv', t', ts', hmc', ht', hent'⟩ :=
              ih res₀ hor ent hent₀
            exact ⟨kv', List.mem_cons_of_mem _ hkv', t', ts', hmc',
              ht', hent'⟩

theorem filterEndings_mem (c : SEC) (kv : Sym × ETrie)
    (h : kv ∈ c.filterEndings) :
    kv.2 = (alookup c.wordsEndings kv.1).getD ETrie.empty := by
  rw [SEC.filterEndings] at h
  obtain ⟨kv₀, -, hkv⟩ := List.mem_map.mp h
  subst hkv
  rfl

/-- Eliminating one row of `optimize_words`: the row's stem comes from
the filtered set, its `top` is the head count of the sorted endings
(which must be non-empty), and its `total` is the stem's non-zero
global count. -/
theorem optimizeWords_elim (c : SEC) (res : List OptEntry)
    (h : c.optimizeWords = .ok res) (ent : OptEntry) (hent : ent ∈ res) :
    ∃ kv ∈ c.filterEndings, ∃ t ts,
      mostCommonList kv.2.endings = t :: ts ∧
      counterGet c.wordCounter kv.1 ≠ 0 ∧
      ent = ⟨kv.1, ((t :: ts).take 3).map (fun e => (e.1.reverse, e.2)),
             t.2, counterGet c.wordCounter kv.1⟩ := by
  rw [SEC.optimizeWords] at h
  exact optRows_mem c.wordCounter c.filterEndings res h ent hent

/-- The co-occurrence stream of the C7 counterexample: one stem `"s"`
paired with six words sharing the final letter `"a"` and one odd word
`"q"` whose pooled count the collapse leaves unassigned. -/
def c7adds : List (Sym × Sym) :=
  [(['s'], ['b','a']), (['s'], ['c','a']), (['s'], ['d','a']),
   (['s'], ['e','a']), (['s'], ['f','a']), (['s'], ['g','a']),
   (['s'], ['q'])]

/-- The program's ranking pipeline on that stream: feed the pairs,
collapse every stem's trie, rank by dominance. -/
def c7pipeline : Except Unit (List OptEntry) := do
  let c ← (applyAdds c7adds).collapseAll
  c.mostCommon

/-- C7, counterexample — a ranked stem with exactly one observed ending
whose dominance is not 1: for the evidence stream `c7adds` the stem
`"s"` ends with the single collapsed ending `"a"` (count 6), but its
dominance divides by the stem's global co-occurrence count 7 (the
unassignable word `"q"` stays in the leftover pool), so
`top_vs_all = 6/7 ≠ 1`.  This refutes the claimed equivalence
"dominance equals 1 exactly when the stem has only one observed
ending". -/
theorem dominance_counterexample :
    ∃ ents, c7pipeline = .ok ents ∧ ∃ ent ∈ ents,
      ent.tops.length = 1 ∧ ¬ ent.topVsAll = 1 := by
  have hok : c7pipeline = .ok (c7pipeline.toOption.getD []) := by rfl
  have h : ∃ ent ∈ c7pipeline.toOption.getD [],
      ent.tops.length = 1 ∧ ent.top = 6 ∧ ent.total = 7 := by decide
  obtain ⟨ent, hmem, h1, h6, h7⟩ := h
  refine ⟨_, hok, ent, hmem, h1, ?_⟩
  rw [OptEntry.topVsAll, h6, h7]
  norm_num

/-- C7 — bounds of the dominance value: for every entry of the ranking
produced by `most_common` after feeding any evidence stream and
collapsing, `top_vs_all` lies in `(0, 1]`; it equals 1 exactly when the
top ending's count equals the stem's entire global co-occurrence count
(not when the stem merely has one observed ending), and dominance 1
does imply a single observed ending. -/
theorem dominance_bounds (adds : List (Sym × Sym)) (c' : SEC)
    (res : List OptEntry) (ent : OptEntry)
    (hc : (applyAdds adds).collapseAll = .ok c')
    (hm : c'.mostCommon = .ok res) (hent : ent ∈ res) :
    0 < ent.topVsAll ∧ ent.topVsAll ≤ 1 ∧
      (ent.topVsAll = 1 ↔ ent.top = ent.total) ∧
      (ent.topVsAll = 1 → ent.tops.length = 1) := by
  rw [SEC.mostCommon] at hm
  cases how : c'.optimizeWords with
  | error e => simp [how, bind, Except.bind] at hm
  | ok ow =>
    simp only [how, bind, Except.bind, pure, Except.pure,
      Except.ok.injEq] at hm
    subst hm
    have hent₀ : ent ∈ ow :=
      (List.perm_insertionSort _ ow).mem_iff.mp hent
    obtain ⟨kv, hkv, t, ts, hmc, ht0, henteq⟩ :=
      optimizeWords_elim c' ow how ent hent₀
    subst henteq
    have hkv2 := filterEndings_mem c' kv hkv
    obtain ⟨hwc, halk⟩ := collapseAll_elim _ c' hc
    cases halo : alookup c'.wordsEndings kv.1 with
    | none =>
      rw [halo] at hkv2
      rw [show (none : Option ETrie).getD ETrie.empty = ETrie.empty
        from rfl] at hkv2
      rw [hkv2] at hmc
      rw [show mostCommonList ETrie.empty.endings = [] from rfl] at hmc
      exact absurd hmc (by simp)
    | some tr₁ =>
      rw [halo, Option.getD_some] at hkv2
      rw [hkv2] at hmc
      obtain ⟨tr, htr, hcol⟩ := halk kv.1 tr₁ halo
      have hinv := secInv_applyAdds adds kv.1
      rw [htr, Option.getD_some] at hinv
      obtain ⟨hsum, hpos⟩ := hinv
      obtain ⟨hcons, hpose⟩ := collapse_conservation tr tr₁ hcol
      have hposE := hpose hpos
      have hperm : (mostCommonList tr₁.endings).Perm tr₁.endings :=
        List.perm_insertionSort _ _
      have htmem : t ∈ tr₁.endings := hperm.mem_iff.mp
        (by rw [hmc]; exact List.mem_cons_self _ _)
      have htpos : 0 < t.2 := hposE t htmem
      have hsume : t.2 + (ts.map Prod.snd).sum =
          (tr₁.endings.map Prod.snd).sum := by
        have hps := (hperm.map Prod.snd).sum_eq
        rw [hmc] at hps
        simpa using hps
      have hT : counterGet c'.wordCounter kv.1 =
          (tr.words.map Prod.snd).sum := by
        rw [hwc]; exact hsum.symm
      have htle : t.2 ≤ counterGet c'.wordCounter kv.1 := by
        rw [hT]; omega
      have hTpos : 0 < counterGet c'.wordCounter kv.1 :=
        Nat.pos_of_ne_zero ht0
      have hTq : (0:ℚ) < (counterGet c'.wordCounter kv.1 : ℚ) := by
        exact_mod_cast hTpos
      have hTne : (counterGet c'.wordCounter kv.1 : ℚ) ≠ 0 :=
        ne_of_gt hTq
      simp only [OptEntry.topVsAll]
      refine ⟨?_, ?_, ?_, ?_⟩
      · exact div_pos (by exact_mod_cast htpos) hTq
      · rw [div_le_one hTq]
        exact_mod_cast htle
      · rw [div_eq_one_iff_eq hTne]
        exact Nat.cast_inj
      · intro h1
        rw [div_eq_one_iff_eq hTne] at h1
        have h2 : t.2 = counterGet c'.wordCounter kv.1 := by
          exact_mod_cast h1
        cases hts : ts with
        | nil => rfl
        | cons u ts' =>
          exfalso
          have humem : u ∈ tr₁.endings := hperm.mem_iff.mp
            (by rw [hmc, hts]
                exact List.mem_cons_of_mem _ (List.mem_cons_self _ _))
          have hupos : 0 < u.2 := hposE u humem
          rw [hts] at hsume
          simp only [List.map_cons, List.sum_cons] at hsume
          rw [hT] at h2
          omega

/-- Witness for C7 at the one-pair stream `add("s", "ba")`: the ranked
entry for stem `"s"` has dominance `1/1`, inside `(0, 1]`, equal to 1
with its single ending covering the full count. -/
theorem dominance_bounds_witness :
    0 < (OptEntry.mk ['s'] [(['b','a'], 1)] 1 1).topVsAll ∧
      (OptEntry.mk ['s'] [(['b','a'], 1)] 1 1).topVsAll ≤ 1 ∧
      ((OptEntry.mk ['s'] [(['b','a'], 1)] 1 1).topVsAll = 1 ↔
        (OptEntry.mk ['s'] [(['b','a'], 1)] 1 1).top =
          (OptEntry.mk ['s'] [(['b','a'], 1)] 1 1).total) ∧
      ((OptEntry.mk ['s'] [(['b','a'], 1)] 1 1).topVsAll = 1 →
        (OptEntry.mk ['s'] [(['b','a'], 1)] 1 1).tops.length = 1) :=
  dominance_bounds [(['s'], ['b','a'])]
    ⟨[(['s'], ⟨Node.mk [(['a','b'], Node.mk [] true)] false, [],
        [(['a','b'], 1)]⟩),
      (['b','a'], ⟨Node.mk [(['s'], Node.mk [] true)] false, [],
        [(['s'], 1)]⟩)],
     [(['s'], 1), (['b','a'], 1)]⟩
    [⟨['s'], [(['b','a'], 1)], 1, 1⟩, ⟨['b','a'], [(['s'], 1)], 1, 1⟩]
    ⟨['s'], [(['b','a'], 1)], 1, 1⟩
    (by rfl) (by rfl) (by decide)

end Morphology
